import Mathlib

/-!
Shallow embedding of the tetromino tiling solver (`src/lib.rs`) and proofs
about it.

Machine integers are modelled as `Nat` with explicit reductions `% 2 ^ 64`
(resp. bounds `< 2 ^ 32`) where the Rust code operates on `u64` (resp. `u32`).
A Rust shift `x << n` on `u64` is only defined for `0 ≤ n < 64`; outside that
range the Rust program faults (panic with overflow checks, masked shift
otherwise).  The embedding keeps the mathematical value `(x <<< n) % 2 ^ 64`
and records the in-range side condition separately (`Board.newShiftsInRange`),
so that faulting executions can be identified.

Fallible or panicking operations (`Result`, `unwrap`, out-of-bounds indexing)
are modelled with `Except` / `Option`.
-/

/-- The maximum number of pieces the library can handle (`MAX_PIECE_COUNT`). -/
def MAX_PIECE_COUNT : Nat := 12

/-- Errors of `solve_one` (`enum SolveOneError`). -/
inductive SolveOneError where
  | InvalidBoardSize
  | InconsistentPieceCount
  | PieceCountOverLimit
deriving DecidableEq

/-- One-sided tetromino kinds (`enum Piece`). -/
inductive Piece where
  | I
  | O
  | T
  | J
  | L
  | S
  | Z
deriving DecidableEq

/-- The value of `piece as usize` (Rust enum discriminant, declaration order). -/
def Piece.idx : Piece → Nat
  | .I => 0
  | .O => 1
  | .T => 2
  | .J => 3
  | .L => 4
  | .S => 5
  | .Z => 6

/-- The number of one-sided tetrominoes (`Piece::count()`). -/
def Piece.count : Nat := 7

/-- A multiset of pieces (`struct PieceCollection`), a 7-entry count array
indexed by `Piece.idx`. -/
structure PieceCollection where
  counts : List Nat
deriving DecidableEq

/-- `PieceCollection::count` (array read `self.counts[piece as usize]`). -/
def PieceCollection.count (pc : PieceCollection) (p : Piece) : Nat :=
  pc.counts.getD p.idx 0

/-- `PieceCollection::remove` (`self.counts[piece as usize] -= 1`). -/
def PieceCollection.remove (pc : PieceCollection) (p : Piece) : PieceCollection :=
  ⟨pc.counts.set p.idx (pc.counts.getD p.idx 0 - 1)⟩

/-- `PieceCollection::add` (`self.counts[piece as usize] += 1`). -/
def PieceCollection.add (pc : PieceCollection) (p : Piece) : PieceCollection :=
  ⟨pc.counts.set p.idx (pc.counts.getD p.idx 0 + 1)⟩

/-- `PieceCollection::count_all` (`self.counts.iter().sum()`). -/
def PieceCollection.count_all (pc : PieceCollection) : Nat :=
  pc.counts.sum

/-- Error of piece-string parsing (`enum ParsePieceCollectionError`). -/
inductive ParsePieceCollectionError where
  | UnrecognizedCharacter
deriving DecidableEq

/-- The per-character match of `<PieceCollection as FromStr>::from_str`. -/
def charPiece (c : Char) : Option Piece :=
  match c with
  | 'I' | 'i' => some .I
  | 'O' | 'o' => some .O
  | 'T' | 't' => some .T
  | 'J' | 'j' => some .J
  | 'L' | 'l' => some .L
  | 'S' | 's' => some .S
  | 'Z' | 'z' => some .Z
  | _ => none

/-- The character loop of `from_str`, accumulating the count array.  The
source's `u32` counters are embedded as `Nat`; each counter is bounded by the
number of characters processed, so the embedding is exact on every string
shorter than `2 ^ 32` characters — the bound claim C8 carries. -/
def PieceCollection.fromStrAux :
    List Char → List Nat → Except ParsePieceCollectionError (List Nat)
  | [], counts => .ok counts
  | c :: rest, counts =>
    match charPiece c with
    | none => .error .UnrecognizedCharacter
    | some p => PieceCollection.fromStrAux rest (counts.set p.idx (counts.getD p.idx 0 + 1))

/-- `<PieceCollection as FromStr>::from_str`. -/
def PieceCollection.fromStr (s : String) :
    Except ParsePieceCollectionError PieceCollection :=
  (PieceCollection.fromStrAux s.toList (List.replicate Piece.count 0)).map PieceCollection.mk

/-- The 19 fixed (rotation-expanded) tetromino variants (`enum FixedPiece`). -/
inductive FixedPiece where
  | I1
  | I2
  | O1
  | T1
  | T2
  | T3
  | T4
  | J1
  | J2
  | J3
  | J4
  | L1
  | L2
  | L3
  | L4
  | S1
  | S2
  | Z1
  | Z2
deriving DecidableEq

/-- The value of `fixed_piece as usize` (declaration order). -/
def FixedPiece.idx : FixedPiece → Nat
  | .I1 => 0
  | .I2 => 1
  | .O1 => 2
  | .T1 => 3
  | .T2 => 4
  | .T3 => 5
  | .T4 => 6
  | .J1 => 7
  | .J2 => 8
  | .J3 => 9
  | .J4 => 10
  | .L1 => 11
  | .L2 => 12
  | .L3 => 13
  | .L4 => 14
  | .S1 => 15
  | .S2 => 16
  | .Z1 => 17
  | .Z2 => 18

/-- The number of fixed tetrominoes (`FixedPiece::count()`). -/
def FixedPiece.count : Nat := 19

/-- All fixed tetrominoes in canonical order (`FixedPiece::array()`). -/
def FixedPiece.array : List FixedPiece :=
  [.I1, .I2, .O1, .T1, .T2, .T3, .T4, .J1, .J2, .J3, .J4,
   .L1, .L2, .L3, .L4, .S1, .S2, .Z1, .Z2]

/-- `<FixedPiece as From<usize>>::from`; the Rust `panic!()` default arm is
modelled as `none`. -/
def fixedPieceOfIdx : Nat → Option FixedPiece
  | 0 => some .I1
  | 1 => some .I2
  | 2 => some .O1
  | 3 => some .T1
  | 4 => some .T2
  | 5 => some .T3
  | 6 => some .T4
  | 7 => some .J1
  | 8 => some .J2
  | 9 => some .J3
  | 10 => some .J4
  | 11 => some .L1
  | 12 => some .L2
  | 13 => some .L3
  | 14 => some .L4
  | 15 => some .S1
  | 16 => some .S2
  | 17 => some .Z1
  | 18 => some .Z2
  | _ => none

/-- A shape: the 3 relative `(row, column)` offsets of a variant
(`type PieceShape`, a transparent alias). -/
abbrev PieceShape : Type := List (Int × Int)

/-- The table of the 19 shapes (`const fn piece_shapes`). -/
def piece_shapes : List PieceShape :=
  [[(1, 0), (2, 0), (3, 0)],
   [(0, 1), (0, 2), (0, 3)],
   [(0, 1), (1, 1), (1, 0)],
   [(0, 1), (0, 2), (1, 1)],
   [(1, 0), (1, -1), (2, 0)],
   [(1, -1), (1, 0), (1, 1)],
   [(1, 0), (1, 1), (2, 0)],
   [(1, 0), (2, -1), (2, 0)],
   [(1, 0), (1, 1), (1, 2)],
   [(0, 1), (1, 0), (2, 0)],
   [(0, 1), (0, 2), (1, 2)],
   [(1, 0), (2, 0), (2, 1)],
   [(0, 1), (0, 2), (1, 0)],
   [(0, 1), (1, 1), (2, 1)],
   [(1, -2), (1, -1), (1, 0)],
   [(0, 1), (1, -1), (1, 0)],
   [(1, 0), (1, 1), (2, 1)],
   [(0, 1), (1, 1), (1, 2)],
   [(1, -1), (1, 0), (2, -1)]]

/-- `const fn piece_shape` (array read `piece_shapes()[fixed_piece as usize]`). -/
def piece_shape (fp : FixedPiece) : PieceShape :=
  piece_shapes.getD fp.idx []

/-- `const PIECE_MAP`, mapping fixed tetrominoes to their kind. -/
def PIECE_MAP : List Piece :=
  [.I, .I, .O, .T, .T, .T, .T, .J, .J, .J, .J, .L, .L, .L, .L, .S, .S, .Z, .Z]

/-- The array read `PIECE_MAP[fixed_piece as usize]` (index always `< 19`). -/
def pieceMapAt (fp : FixedPiece) : Piece :=
  PIECE_MAP.getD fp.idx .I

/-- A rendered board snapshot (`struct Position`): one byte per square,
`b'.' = 46` for empty, `b'\n' = 10` as row terminator, `b'A' = 65, ...`
for occupied squares. -/
structure Position where
  squares : List Nat
deriving DecidableEq

/-- `u64::max_value()`. -/
def U64_MAX : Nat := 2 ^ 64 - 1

/-- The bitboard (`struct Board`).  `stack` models the live prefix
`stack[0 .. stack_count]` of the fixed 12-entry Rust array (entries in
placement order); its length is `stack_count`. -/
structure Board where
  width : Nat
  height : Nat
  bits : Nat
  bitmaps : List Nat
  stack : List (Nat × Piece)
deriving DecidableEq

/-- A `u64` left shift by a (possibly negative) `isize` amount, as its
in-range mathematical value.  The Rust source faults when the amount is
outside `[0, 64)`; that side condition is tracked by
`Board.newShiftsInRange`. -/
def u64ShlI (x : Nat) (n : Int) : Nat :=
  (x <<< n.toNat) % 2 ^ 64

/-- Decides that every shift performed by `Board::new(row_count, col_count)`
has an in-range amount, i.e. that the Rust construction does not fault:
`u64::max_value() << area` needs `area < 64`, and each precomputed bitmap
shift `1 << (width * row_offset + column_offset)` needs an amount in
`[0, 64)`. -/
def Board.newShiftsInRange (row_count col_count : Nat) : Bool :=
  let width := col_count + 1
  let area := width * row_count
  decide (area < 64) &&
    piece_shapes.all fun shape =>
      shape.all fun sq =>
        let s : Int := (width : Int) * sq.1 + sq.2
        decide (0 ≤ s) && decide (s < 64)

/-- The precomputed placement bitmap of one shape on a board of the given
width (the inner loop of `Board::new`: start from bit 0 set, OR in
`1 << (width * row_offset + column_offset)` for each of the 3 offsets). -/
def variantBitmap (width : Nat) (shape : PieceShape) : Nat :=
  shape.foldl (fun acc sq => acc ||| u64ShlI 1 ((width : Int) * sq.1 + sq.2)) 1

/-- `Board::new`.  Sets every bit at or beyond `width * height`, sets every
sentinel-column bit (the loop `(0..area).skip(width - 1).step_by(width)`,
whose index sequence is `List.range' (width - 1) height width`), and
precomputes one placement bitmap per variant. -/
def Board.new (row_count col_count : Nat) : Board :=
  let width := col_count + 1
  let height := row_count
  let area := width * height
  let bits := (U64_MAX <<< area) % 2 ^ 64
  let bits := (List.range' (width - 1) height width).foldl
    (fun b n => b ||| (1 <<< n) % 2 ^ 64) bits
  let bitmaps := piece_shapes.map (variantBitmap width)
  { width := width
    height := height
    bits := bits
    bitmaps := bitmaps
    stack := [] }

/-- Trailing zeros of a `u64` value (`u64::trailing_zeros`, which returns 64
on input 0). -/
def u64TrailingZeros (x : Nat) : Nat :=
  List.findIdx (fun i => x.testBit i) (List.range 64)

/-- `Board::first_empty_square`:
`(self.bits ^ u64::max_value()).trailing_zeros()`. -/
def Board.first_empty_square (b : Board) : Nat :=
  u64TrailingZeros (b.bits ^^^ U64_MAX)

/-- `Board::push`.  `none` models `Err(())` (the piece does not fit); no field
changes in that case.  The Rust `debug_assert!(stack_count < MAX_PIECE_COUNT)`
is a caller contract, stated as a hypothesis where relevant. -/
def Board.push (b : Board) (fixed_piece : FixedPiece) : Option Board :=
  let offset := b.first_empty_square
  let bitmap := (b.bitmaps.getD fixed_piece.idx 0 <<< offset) % 2 ^ 64
  if b.bits &&& bitmap ≠ 0 then
    none
  else
    some { b with
           bits := b.bits ||| bitmap
           stack := b.stack ++ [(bitmap, pieceMapAt fixed_piece)] }

/-- `Board::pop`.  Removes the top stack entry, clears its bitmap out of the
occupancy (`self.bits &= !bitmap`, with `!bitmap = U64_MAX ^^^ bitmap`) and
returns the popped kind.  `none` models the empty-stack contract violation
(`debug_assert!(stack_count > 0)` / index underflow). -/
def Board.pop (b : Board) : Option (Piece × Board) :=
  match b.stack.getLast? with
  | none => none
  | some (bitmap, kind) =>
    some (kind, { b with
                  bits := b.bits &&& (U64_MAX ^^^ bitmap)
                  stack := b.stack.dropLast })

/-- `Board::is_complete`. -/
def Board.is_complete (b : Board) : Bool :=
  b.bits == U64_MAX

/-- The offset writes of one stack entry in `Board::position`:
`squares[shift] = marker` followed by `squares[shift + width * r + c] = marker`
for the 3 shape offsets.  An out-of-range index (in Rust: a panic, after the
`usize` cast wraps a negative offset) leaves the list unchanged. -/
def posWriteShape (width marker shift : Nat) (shape : PieceShape)
    (squares : List Nat) : List Nat :=
  shape.foldl
    (fun sq off =>
      let index : Int := (shift : Int) + ((width : Int) * off.1 + off.2)
      if index < 0 then sq else sq.set index.toNat marker)
    (squares.set shift marker)

/-- The stack loop of `Board::position` (`self.stack[0..stack_count].iter()
.enumerate()`), with the enumeration index threaded explicitly.  The reverse
variant lookup `self.bitmaps.iter().position(|&b| b == bitmap).unwrap()`
returns `none` on lookup failure (a Rust panic). -/
def posEntriesGo (b : Board) :
    Nat → List (Nat × Piece) → List Nat → Option (List Nat)
  | _, [], squares => some squares
  | index, (bitmap, _) :: rest, squares =>
    let shift := u64TrailingZeros bitmap
    let bitmap2 := bitmap >>> shift
    match b.bitmaps.findIdx? (fun bm => bm == bitmap2) with
    | none => none
    | some i =>
      match fixedPieceOfIdx i with
      | none => none
      | some fp =>
        let marker := index + 65
        posEntriesGo b (index + 1) rest
          (posWriteShape b.width marker shift (piece_shape fp) squares)

/-- `Board::position`.  Starts from an all-`'.'` vector of `width * height`
bytes, writes each stack entry's marker, then stamps `b'\n'` at every
sentinel-column index (`iter_mut().skip(width - 1).step_by(width)`, index
sequence `List.range' (width - 1) height width`). -/
def Board.position? (b : Board) : Option Position :=
  match posEntriesGo b 0 b.stack (List.replicate (b.width * b.height) 46) with
  | none => none
  | some squares =>
    some ⟨(List.range' (b.width - 1) b.height b.width).foldl
            (fun sq n => sq.set n 10) squares⟩

/-- `Solver::solve_one`.  The variant loop `for r in &FixedPiece::array()`
returns the first success, i.e. it is `List.findSome?` over the canonical
variant order: a zero remaining count or a failed `push` tries the next
variant (`none`), and after a failed recursive call the Rust code restores
its in-place state with `pop`/`add` and continues — in this persistent-value
embedding the unchanged `b` and `pieces` are reused directly (that `pop`
exactly undoes `push` is proved below for claim C4).  The Rust recursion
carries no fuel; the `Nat` argument only bounds the recursion depth for Lean
and is chosen large enough by the entry point (each recursive call removes
one piece, so `count_all + 1` suffices). -/
def Solver.solve_one : Nat → Board → PieceCollection → Option Position
  | 0, _, _ => none
  | fuel + 1, b, pieces =>
    if b.is_complete then
      b.position?
    else
      FixedPiece.array.findSome? fun r =>
        let t := pieceMapAt r
        if pieces.count t = 0 then
          none
        else
          match b.push r with
          | none => none
          | some b2 => Solver.solve_one fuel b2 (pieces.remove t)

/-- `solve_one`, the library entry point.  The three validation checks run
eagerly, in source order, before the search. -/
def solve_one (row_count column_count : Nat) (pieces : PieceCollection) :
    Except SolveOneError (Option Position) :=
  let square_count := row_count * column_count
  if square_count % 4 ≠ 0 then
    .error .InvalidBoardSize
  else
    let piece_count := pieces.count_all
    if 4 * piece_count ≠ square_count then
      .error .InconsistentPieceCount
    else if piece_count > MAX_PIECE_COUNT then
      .error .PieceCountOverLimit
    else
      .ok (Solver.solve_one (piece_count + 1) (Board.new row_count column_count) pieces)

/-- The bytes of a string, for stating expected renderings. -/
def stringBytes (s : String) : List Nat :=
  s.toList.map Char.toNat

/-- The two letters (upper and lower case) that `from_str` maps to each kind. -/
def pieceLetters : Piece → List Char
  | .I => ['I', 'i']
  | .O => ['O', 'o']
  | .T => ['T', 't']
  | .J => ['J', 'j']
  | .L => ['L', 'l']
  | .S => ['S', 's']
  | .Z => ['Z', 'z']

/-- All fourteen letters accepted by `from_str`. -/
def pieceAlphabet : List Char :=
  ['I', 'i', 'O', 'o', 'T', 't', 'J', 'j', 'L', 'l', 'S', 's', 'Z', 'z']

/-- The boards reachable from `Board::new(row_count, column_count)` by any
sequence of (successful) `push` and `pop` operations. -/
inductive Reach (row_count column_count : Nat) : Board → Prop where
  | base : Reach row_count column_count (Board.new row_count column_count)
  | push (b b2 : Board) (v : FixedPiece) :
      Reach row_count column_count b → b.push v = some b2 →
      Reach row_count column_count b2
  | pop (b b2 : Board) (k : Piece) :
      Reach row_count column_count b → b.pop = some (k, b2) →
      Reach row_count column_count b2

/-- The occupancy invariant carried along `Reach`: the occupancy word stays
in `u64` range, the initial sentinel/padding bits of `Board::new` stay set,
and every live stack entry's bitmap is disjoint from those initial bits. -/
def BoardInv (row_count column_count : Nat) (b : Board) : Prop :=
  b.bits < 2 ^ 64 ∧
  (Board.new row_count column_count).bits &&& b.bits
    = (Board.new row_count column_count).bits ∧
  ∀ e ∈ b.stack, e.1 &&& (Board.new row_count column_count).bits = 0 ∧ e.1 < 2 ^ 64

/-- The occupancy contribution of a list of stack entries: the OR of their
bitmaps over an initial word (`Board.bits` is this fold of the live stack
over the initial sentinel/padding word). -/
def foldOrBitmaps (l : List (Nat × Piece)) (acc : Nat) : Nat :=
  l.foldl (fun a e => a ||| e.1) acc

/-- The number of set bits of a `u64` value. -/
def popCount64 (x : Nat) : Nat :=
  ((Finset.range 64).filter (fun i => x.testBit i)).card

/-- The cells of a label in a rendered `Position`: the `(row, column)`
coordinates (as integers) of every index of `squares` holding the byte
`m`, on a grid of the given row width (including the newline column). -/
def labelCellsOf (squares : List Nat) (width m : Nat) : List (Int × Int) :=
  ((List.range squares.length).filter (fun n => squares.getD n 0 == m)).map
    (fun n => ((n / width : Nat), (n % width : Nat)))

/-- The canonical footprint of a variant: its anchor cell `(0, 0)` plus its
3 relative offsets. -/
def footprintOf (v : FixedPiece) : List (Int × Int) :=
  (0, 0) :: piece_shape v

/-- The column offsets of a variant's cells, anchor included. -/
def dcSetOf (v : FixedPiece) : List Int :=
  0 :: (piece_shape v).map Prod.snd

/-- A stack entry whose bitmap is an exactly-shifted variant bitmap with all
bits on real board cells (inside the area, not on the sentinel column) — the
shape every live entry has on a completed board. -/
def EntryRenderable (row_count col_count : Nat) (e : Nat × Piece) : Prop :=
  ∃ v : FixedPiece, ∃ s : Nat,
    e.1 = variantBitmap (col_count + 1) (piece_shape v) <<< s ∧
    ∀ p : Nat, e.1.testBit p = true →
      p < (col_count + 1) * row_count ∧ p % (col_count + 1) ≠ col_count

/-- The invariant of the solver recursion along a branch of successful
pushes, relating the input multiset, the board and the remaining multiset:
field names are used throughout the claim-C2 development. -/
structure SolverInv (row_count col_count : Nat) (input : PieceCollection)
    (b : Board) (pcs : PieceCollection) : Prop where
  hw : b.width = col_count + 1
  hh : b.height = row_count
  hbm : b.bitmaps = (Board.new row_count col_count).bitmaps
  hbits : b.bits = foldOrBitmaps b.stack (Board.new row_count col_count).bits
  hdisj : b.stack.Pairwise (fun e1 e2 => e1.1 &&& e2.1 = 0)
  hmaskdisj : ∀ e ∈ b.stack, e.1 &&& (Board.new row_count col_count).bits = 0
  hprov : ∀ e ∈ b.stack, ∃ v : FixedPiece, ∃ s : Nat, s < 64 ∧
    e.1 = (variantBitmap (col_count + 1) (piece_shape v) <<< s) % 2 ^ 64 ∧
    e.2 = pieceMapAt v
  hcounts : ∀ k : Piece, input.count k
    = pcs.count k + (b.stack.filter (fun e => e.2 == k)).length
  hsum : input.count_all = pcs.count_all + b.stack.length
  hlen7 : pcs.counts.length = 7

/-- The 16-entry box-drawing glyph table of the pretty `Display`
(`BOX_CHARS`), indexed by the 4-bit code `up + 2*down + 4*left + 8*right`;
the four single-edge codes 1, 2, 4, 8 hold the placeholder `'?'`. -/
def BOX_CHARS : List Char :=
  [' ', '?', '?', '│', '?', '┘', '┐', '┤', '?', '└', '┌', '├', '─', '┴', '┬', '┼']

/-- The closure `get` of the pretty `Display`: reads the grid rescaled to
`row_count` by `2 * column_count`, `none` off the board. -/
def posGet (squares : List Nat) (column_count row_count : Nat)
    (row col : Int) : Option Nat :=
  if row < 0 ∨ (row_count : Int) ≤ row ∨ col < 0 ∨ 2 * (column_count : Int) ≤ col then
    none
  else
    some (squares.getD (row * ((column_count : Int) + 1) + col / 2).toNat 0)

/-- The per-vertex glyph choice of the pretty `Display`: the 4-bit boundary
code selects a `BOX_CHARS` entry; code 0 renders `'░'` on an empty square and
`' '` otherwise. -/
def vertexChar (top_left top_right bottom_left bottom_right : Option Nat) : Char :=
  let up := top_left != top_right
  let down := bottom_left != bottom_right
  let left := top_left != bottom_left
  let right := top_right != bottom_right
  let char_index := (if up then 1 else 0) + (if down then 2 else 0) +
    (if left then 4 else 0) + (if right then 8 else 0)
  if char_index > 0 then
    BOX_CHARS.getD char_index '?'
  else if bottom_right == some 46 then
    '░'
  else
    ' '

/-- One output row of the pretty `Display`: the inner `for col in
0..=2*column_count` loop plus the trailing `writeln!`. -/
def prettyRow (squares : List Nat) (column_count row_count : Nat) (row : Int) :
    List Char :=
  ((List.range (2 * column_count + 1)).map fun colN =>
    vertexChar (posGet squares column_count row_count (row - 1) ((colN : Int) - 1))
      (posGet squares column_count row_count (row - 1) (colN : Int))
      (posGet squares column_count row_count (row : Int) ((colN : Int) - 1))
      (posGet squares column_count row_count (row : Int) (colN : Int))) ++ ['
']

/-- The pretty (alternate) rendering of `impl Display for Position` (format
`{:#}`): `column_count` is the index of the first newline byte (`none`
models the `unwrap` panic when there is none), and the output is
`row_count + 1` rows of `2 * column_count + 1` glyphs, each
newline-terminated (the loop `for row in 0..=row_count`). -/
def prettyRender? (p : Position) : Option (List Char) :=
  match p.squares.findIdx? (fun s => s == 10) with
  | none => none
  | some column_count =>
    let row_count := p.squares.length / (column_count + 1)
    some (((List.range (row_count + 1)).map fun rowN =>
      prettyRow p.squares column_count row_count (rowN : Int)).flatten)

/-! ## Claim C7: known solutions -/

/-- C7: `solve_one(1, 4, pieces parsed from "I")` returns `Ok(Some(p))` whose
plain rendering is exactly `"AAAA\n"`, and `solve_one(4, 4, pieces parsed
from "LLZZ")` returns `Ok(Some(p))` whose plain rendering is exactly
`"AAAB\nACBB\nCCBD\nCDDD\n"`. -/
theorem c7_known_solutions :
    (PieceCollection.fromStr "I").map (fun pc => solve_one 1 4 pc)
      = .ok (.ok (some ⟨stringBytes "AAAA\n"⟩)) ∧
    (PieceCollection.fromStr "LLZZ").map (fun pc => solve_one 4 4 pc)
      = .ok (.ok (some ⟨stringBytes "AAAB\nACBB\nCCBD\nCDDD\n"⟩)) := by
  exact ⟨rfl, rfl⟩

/-! ## Claim C1: validated inputs that overflow the 64-bit occupancy word -/

/-- C1 (failing input): the input `(row_count, column_count, pieces) =
(48, 1, "IIIIIIIIIIII")` passes all three validation checks of `solve_one`
(48 squares divisible by 4, 12 pieces covering 48 squares, 12 ≤ cap), yet
`row_count * (column_count + 1) = 96 > 64`, and `Board::new(48, 1)` performs
an out-of-range 64-bit shift (`u64::max_value() << 96`), so the search does
not complete normally.  This refutes the claim that the validation checks
ensure the board and its sentinel columns fit in the 64-bit occupancy word. -/
theorem c1_checks_pass_but_board_overflows :
    ∃ pc : PieceCollection,
      PieceCollection.fromStr "IIIIIIIIIIII" = .ok pc ∧
      (48 * 1) % 4 = 0 ∧
      4 * pc.count_all = 48 * 1 ∧
      pc.count_all ≤ MAX_PIECE_COUNT ∧
      (solve_one 48 1 pc).isOk = true ∧
      48 * (1 + 1) > 64 ∧
      Board.newShiftsInRange 48 1 = false := by
  exact ⟨⟨[12, 0, 0, 0, 0, 0, 0]⟩, rfl, by decide, by decide, by decide, rfl,
    by decide, by decide⟩

/-! ## Claim C3: eager validation, in order -/

/-- C3: the three preconditions of `solve_one` are checked eagerly before any
search work, in source order: `InvalidBoardSize` iff the square count is not
divisible by 4; otherwise `InconsistentPieceCount` iff `4 * count_all`
differs from the square count; otherwise `PieceCountOverLimit` iff
`count_all > 12`; otherwise the search runs and the result is `Ok`.  The
bound hypotheses confine the statement to inputs where the `u32` products of
the source are defined.  The three concrete boundary instances of the claim
follow as the final conjuncts. -/
theorem c3_validation_order :
    (∀ (r c : Nat) (pieces : PieceCollection),
      r < 2 ^ 32 → c < 2 ^ 32 → r * c < 2 ^ 32 → 4 * pieces.count_all < 2 ^ 32 →
      (solve_one r c pieces = .error .InvalidBoardSize ↔ (r * c) % 4 ≠ 0) ∧
      (solve_one r c pieces = .error .InconsistentPieceCount ↔
        (r * c) % 4 = 0 ∧ 4 * pieces.count_all ≠ r * c) ∧
      (solve_one r c pieces = .error .PieceCountOverLimit ↔
        (r * c) % 4 = 0 ∧ 4 * pieces.count_all = r * c ∧
          MAX_PIECE_COUNT < pieces.count_all) ∧
      ((r * c) % 4 = 0 → 4 * pieces.count_all = r * c →
        pieces.count_all ≤ MAX_PIECE_COUNT →
        solve_one r c pieces =
          .ok (Solver.solve_one (pieces.count_all + 1) (Board.new r c) pieces))) ∧
    (PieceCollection.fromStr "").map (fun pc => solve_one 1 3 pc)
      = .ok (.error .InvalidBoardSize) ∧
    (PieceCollection.fromStr "I").map (fun pc => solve_one 2 4 pc)
      = .ok (.error .InconsistentPieceCount) ∧
    (PieceCollection.fromStr "IIIIIIIIIIIII").map (fun pc => solve_one 4 13 pc)
      = .ok (.error .PieceCountOverLimit) := by
  refine ⟨?_, rfl, rfl, rfl⟩
  intro r c pieces _ _ _ _
  by_cases h1 : (r * c) % 4 = 0
  · by_cases h2 : 4 * pieces.count_all = r * c
    · by_cases h3 : pieces.count_all ≤ MAX_PIECE_COUNT
      · simp [solve_one, h1, h2, h3, Nat.not_lt.mpr h3]
      · simp [solve_one, h1, h2, Nat.lt_of_not_le h3, Nat.not_le.mp h3]
    · simp [solve_one, h1, h2]
  · simp [solve_one, h1]

/-- Witness for `c3_validation_order`: its universally quantified part applied
at the first boundary instance, with every hypothesis discharged. -/
theorem c3_validation_order_witness :
    (1 * 3) % 4 ≠ 0 ∧ solve_one 1 3 ⟨[0, 0, 0, 0, 0, 0, 0]⟩ = .error .InvalidBoardSize := by
  refine ⟨by decide, ?_⟩
  exact ((c3_validation_order.1 1 3 ⟨[0, 0, 0, 0, 0, 0, 0]⟩ (by decide) (by decide)
    (by decide) (by decide)).1).mpr (by decide)

/-! ## Claim C8: piece-string parsing -/


theorem charPiece_eq_some_iff (c : Char) (p : Piece) :
    charPiece c = some p ↔ c ∈ pieceLetters p := by
  constructor
  · intro h
    unfold charPiece at h
    split at h
    all_goals first
      | (injection h with h; subst h; simp_all [pieceLetters])
      | exact absurd h (by simp)
  · intro h
    cases p <;> simp [pieceLetters] at h <;> rcases h with rfl | rfl <;> rfl

theorem charPiece_isSome_iff (c : Char) :
    (∃ p, charPiece c = some p) ↔ c ∈ pieceAlphabet := by
  constructor
  · rintro ⟨p, hp⟩
    have := (charPiece_eq_some_iff c p).mp hp
    cases p <;> simp_all [pieceLetters, pieceAlphabet] <;> tauto
  · intro h
    simp only [pieceAlphabet, List.mem_cons, List.not_mem_nil, or_false] at h
    rcases h with rfl | rfl | rfl | rfl | rfl | rfl | rfl | rfl | rfl | rfl | rfl | rfl | rfl | rfl <;>
      exact ⟨_, rfl⟩

theorem charPiece_none_iff (c : Char) :
    charPiece c = none ↔ c ∉ pieceAlphabet := by
  rw [← charPiece_isSome_iff]
  cases h : charPiece c <;> simp

theorem Piece.idx_injective {p q : Piece} (h : p.idx = q.idx) : p = q := by
  cases p <;> cases q <;> simp_all [Piece.idx]

theorem Piece.idx_lt_seven (p : Piece) : p.idx < 7 := by
  cases p <;> simp [Piece.idx]

theorem fromStrAux_ok_iff :
    ∀ (l : List Char) (counts : List Nat),
      (∃ cs, PieceCollection.fromStrAux l counts = .ok cs) ↔ ∀ c ∈ l, c ∈ pieceAlphabet := by
  intro l
  induction l with
  | nil => intro counts; simp [PieceCollection.fromStrAux]
  | cons c rest ih =>
    intro counts
    simp only [PieceCollection.fromStrAux]
    cases hcp : charPiece c with
    | none =>
      have hc : c ∉ pieceAlphabet := (charPiece_none_iff c).mp hcp
      simp [hc]
    | some p =>
      have hc : c ∈ pieceAlphabet := (charPiece_isSome_iff c).mp ⟨p, hcp⟩
      simp [hc, ih]

theorem fromStrAux_counts :
    ∀ (l : List Char) (counts cs : List Nat), counts.length = 7 →
      PieceCollection.fromStrAux l counts = .ok cs →
      ∀ p : Piece, cs.getD p.idx 0
        = counts.getD p.idx 0 + l.countP (fun c => decide (c ∈ pieceLetters p)) := by
  intro l
  induction l with
  | nil =>
    intro counts cs _ h p
    injection h with h
    subst h
    simp
  | cons c rest ih =>
    intro counts cs hlen h p
    simp only [PieceCollection.fromStrAux] at h
    cases hcp : charPiece c with
    | none => rw [hcp] at h; exact absurd h (by simp)
    | some q =>
      rw [hcp] at h
      have hlen2 : (counts.set q.idx (counts.getD q.idx 0 + 1)).length = 7 := by
        simpa using hlen
      have hrec := ih _ _ hlen2 h p
      rw [List.countP_cons]
      by_cases hpq : p = q
      · subst hpq
        have hcl : c ∈ pieceLetters p := (charPiece_eq_some_iff c p).mp hcp
        have hidx : p.idx < counts.length := hlen ▸ Piece.idx_lt_seven p
        rw [hrec]
        simp [List.getD, List.getElem?_set_self hidx, hcl]
        omega
      · have hcl : c ∉ pieceLetters p := by
          intro hmem
          exact hpq ((charPiece_eq_some_iff c p).mpr hmem ▸ hcp ▸ rfl
            |> fun hx => Option.some.inj hx)
        have hidx : p.idx ≠ q.idx := fun hx => hpq (Piece.idx_injective hx)
        rw [hrec]
        simp [List.getD, List.getElem?_set_ne (Ne.symm hidx), hcl]

/-- C8: parsing a string into a `PieceCollection` succeeds iff every character
is one of the fourteen letters I,O,T,J,L,S,Z in upper or lower case; on
success the count of each kind equals the number of occurrences of its two
letters; `"iIoOtTjJlLsSzZ"` parses to count 2 for every kind with
`count_all = 14`; and any string containing `'X'` fails with
`UnrecognizedCharacter`.  The statement is confined to strings shorter than
`2 ^ 32` characters: each `u32` counter of the source is bounded by the number
of characters processed so far, so below this bound no `counts[i] += 1`
increment can overflow its `u32` and the unbounded-`Nat` accumulation of the
embedding coincides with the source on every prefix of the run. -/
theorem c8_parse_correctness :
    (∀ s : String, s.toList.length < 2 ^ 32 →
      ((∃ pc, PieceCollection.fromStr s = .ok pc) ↔ ∀ c ∈ s.toList, c ∈ pieceAlphabet) ∧
      (∀ pc, PieceCollection.fromStr s = .ok pc →
        ∀ p : Piece, pc.count p = s.toList.countP (fun c => decide (c ∈ pieceLetters p))) ∧
      ('X' ∈ s.toList → PieceCollection.fromStr s = .error .UnrecognizedCharacter)) ∧
    PieceCollection.fromStr "iIoOtTjJlLsSzZ" = .ok ⟨[2, 2, 2, 2, 2, 2, 2]⟩ ∧
    (PieceCollection.fromStr "iIoOtTjJlLsSzZ").map PieceCollection.count_all = .ok 14 := by
  refine ⟨?_, rfl, rfl⟩
  intro s _hlen
  refine ⟨?_, ?_, ?_⟩
  · rw [← fromStrAux_ok_iff s.toList (List.replicate Piece.count 0)]
    unfold PieceCollection.fromStr
    constructor
    · rintro ⟨pc, hpc⟩
      cases h : PieceCollection.fromStrAux s.toList (List.replicate Piece.count 0) with
      | ok cs => exact ⟨cs, rfl⟩
      | error e => rw [h] at hpc; exact absurd hpc (by simp [Except.map])
    · rintro ⟨cs, hcs⟩
      exact ⟨⟨cs⟩, by rw [hcs]; rfl⟩
  · intro pc hpc p
    unfold PieceCollection.fromStr at hpc
    cases h : PieceCollection.fromStrAux s.toList (List.replicate Piece.count 0) with
    | error e => rw [h] at hpc; exact absurd hpc (by simp [Except.map])
    | ok cs =>
      rw [h] at hpc
      have hpc2 : pc = ⟨cs⟩ := by
        simpa [Except.map] using hpc.symm
      subst hpc2
      have := fromStrAux_counts s.toList _ cs (by simp [Piece.count]) h p
      simpa [PieceCollection.count] using this
  · intro hX
    have hmem : ¬ ∀ c ∈ s.toList, c ∈ pieceAlphabet := by
      intro hall
      exact absurd (hall 'X' hX) (by decide)
    unfold PieceCollection.fromStr
    cases h : PieceCollection.fromStrAux s.toList (List.replicate Piece.count 0) with
    | ok cs =>
      exact absurd ((fromStrAux_ok_iff s.toList (List.replicate Piece.count 0)).mp
        ⟨cs, h⟩) hmem
    | error e => cases e; rfl

/-- Witness for `c8_parse_correctness`: its 'X'-clause applied at the
concrete (in-range) string `"X"`. -/
theorem c8_parse_correctness_witness :
    "X".toList.length < 2 ^ 32 ∧ 'X' ∈ "X".toList ∧
      PieceCollection.fromStr "X" = .error .UnrecognizedCharacter :=
  ⟨by decide, by decide, ((c8_parse_correctness.1 "X" (by decide)).2.2) (by decide)⟩

/-! ## Claims C6 and C4: push and pop -/

theorem u64TrailingZeros_spec {x : Nat} (hx0 : x ≠ 0) (hlt : x < 2 ^ 64) :
    u64TrailingZeros x < 64 ∧ x.testBit (u64TrailingZeros x) = true ∧
      ∀ j < u64TrailingZeros x, x.testBit j = false := by
  obtain ⟨i, hi⟩ := Nat.ne_implies_bit_diff hx0
  rw [Nat.zero_testBit] at hi
  have hib : x.testBit i = true := by simpa using hi
  have hi64 : i < 64 := by
    by_contra hge
    have h1 : 2 ^ 64 ≤ 2 ^ i := Nat.pow_le_pow_right (by omega) (by omega)
    have h2 := Nat.testBit_implies_ge hib
    omega
  have hex : ∃ y ∈ List.range 64, x.testBit y :=
    ⟨i, by simpa [List.mem_range] using hi64, hib⟩
  have hfi := List.findIdx_lt_length_of_exists hex
  have hlen : u64TrailingZeros x < 64 := by
    simpa [u64TrailingZeros] using hfi
  refine ⟨hlen, ?_, ?_⟩
  · have h2 := List.findIdx_getElem (w := hfi)
    simpa [u64TrailingZeros] using h2
  · intro j hj
    have hj2 : j < (List.range 64).findIdx (fun i => x.testBit i) := by
      simpa [u64TrailingZeros] using hj
    have h3 := List.not_of_lt_findIdx hj2
    simpa using h3

/-- C6: `push` computes the candidate bitmap as the precomputed bitmap of the
variant shifted left by `first_empty_square` (the index of the lowest-order
zero bit of the occupancy field, as the last conjunct states), fails with no
mutation — an ordinary `Err`, modelled as `none` — iff that bitmap intersects
the current occupancy, and otherwise ORs the bitmap into the occupancy and
appends `(bitmap, base kind)` to the placement stack. -/
theorem c6_push_behavior (b : Board) (v : FixedPiece) :
    (b.push v = none ↔
      b.bits &&& (b.bitmaps.getD v.idx 0 <<< b.first_empty_square) % 2 ^ 64 ≠ 0) ∧
    (b.bits &&& (b.bitmaps.getD v.idx 0 <<< b.first_empty_square) % 2 ^ 64 = 0 →
      b.push v = some
        { b with
          bits := b.bits ||| (b.bitmaps.getD v.idx 0 <<< b.first_empty_square) % 2 ^ 64
          stack := b.stack ++
            [((b.bitmaps.getD v.idx 0 <<< b.first_empty_square) % 2 ^ 64,
              pieceMapAt v)] }) ∧
    (b.bits < 2 ^ 64 → b.bits ≠ U64_MAX →
      b.bits.testBit b.first_empty_square = false ∧
      ∀ j < b.first_empty_square, b.bits.testBit j = true) := by
  refine ⟨?_, ?_, ?_⟩
  · by_cases hb : b.bits &&& (b.bitmaps.getD v.idx 0 <<< b.first_empty_square) % 2 ^ 64 ≠ 0
    · simp [Board.push, hb]
    · simp [Board.push, hb]
  · intro h
    simp only [Board.push]
    rw [if_neg (not_ne_iff.mpr h)]
  · intro hlt hne
    have hx0 : b.bits ^^^ U64_MAX ≠ 0 := fun h0 => hne (Nat.xor_eq_zero.mp h0)
    have hmaxlt : U64_MAX < 2 ^ 64 := Nat.sub_lt (Nat.pos_pow_of_pos 64 (by omega)) Nat.one_pos
    have hxlt : b.bits ^^^ U64_MAX < 2 ^ 64 := Nat.xor_lt_two_pow hlt hmaxlt
    obtain ⟨h64, hbit, hmin⟩ := u64TrailingZeros_spec hx0 hxlt
    have hfes : b.first_empty_square = u64TrailingZeros (b.bits ^^^ U64_MAX) := rfl
    constructor
    · rw [Nat.testBit_xor] at hbit
      have hd : U64_MAX.testBit (u64TrailingZeros (b.bits ^^^ U64_MAX)) = true := by
        simp only [U64_MAX, Nat.testBit_two_pow_sub_one]
        simpa using h64
      rw [hd] at hbit
      rw [hfes]
      simpa using hbit
    · intro j hj
      rw [hfes] at hj
      have h5 := hmin j hj
      rw [Nat.testBit_xor] at h5
      have hj64 : j < 64 := by omega
      have hd : U64_MAX.testBit j = true := by
        simp only [U64_MAX, Nat.testBit_two_pow_sub_one]
        simpa using hj64
      rw [hd] at h5
      simpa using h5

/-- Witness for `c6_push_behavior` at a concrete board: pushing `I2` on a
fresh 1-by-4 board, whose first empty square is the lowest zero bit 0. -/
theorem c6_push_behavior_witness :
    (Board.new 1 4).bits &&&
        ((Board.new 1 4).bitmaps.getD FixedPiece.I2.idx 0 <<<
          (Board.new 1 4).first_empty_square) % 2 ^ 64 = 0 ∧
      (Board.new 1 4).push .I2 = some
        { Board.new 1 4 with
          bits := (Board.new 1 4).bits |||
            ((Board.new 1 4).bitmaps.getD FixedPiece.I2.idx 0 <<<
              (Board.new 1 4).first_empty_square) % 2 ^ 64
          stack := (Board.new 1 4).stack ++
            [(((Board.new 1 4).bitmaps.getD FixedPiece.I2.idx 0 <<<
                (Board.new 1 4).first_empty_square) % 2 ^ 64,
              pieceMapAt .I2)] } :=
  ⟨by decide, (c6_push_behavior (Board.new 1 4) .I2).2.1 (by decide)⟩

theorem lor_land_not_eq {a m : Nat} (ha : a < 2 ^ 64) (hm : m < 2 ^ 64)
    (hd : a &&& m = 0) : (a ||| m) &&& (U64_MAX ^^^ m) = a := by
  apply Nat.eq_of_testBit_eq
  intro i
  simp only [Nat.testBit_land, Nat.testBit_lor, Nat.testBit_xor, U64_MAX,
    Nat.testBit_two_pow_sub_one]
  by_cases hi : i < 64
  · have hdi : ¬(a.testBit i = true ∧ m.testBit i = true) := by
      rintro ⟨h1, h2⟩
      have hz := congrArg (fun x => Nat.testBit x i) hd
      simp [Nat.testBit_land, h1, h2] at hz
    simp only [hi, decide_True]
    cases ha2 : a.testBit i <;> cases hm2 : m.testBit i <;> simp_all
  · have h1 : a.testBit i = false :=
      Nat.testBit_lt_two_pow (lt_of_lt_of_le ha (Nat.pow_le_pow_right (by omega) (by omega)))
    have h2 : m.testBit i = false :=
      Nat.testBit_lt_two_pow (lt_of_lt_of_le hm (Nat.pow_le_pow_right (by omega) (by omega)))
    simp [hi, h1, h2]

/-- C4: on a board with a non-full placement stack and in-range occupancy,
a successful `push` of a variant followed immediately by `pop` returns the
variant's base kind and restores the board exactly: occupancy bits, stack
length and live stack contents all revert (push then pop is the identity on
the board state). -/
theorem c4_push_then_pop (b : Board) (v : FixedPiece) (b2 : Board)
    (hbits : b.bits < 2 ^ 64) (_hstack : b.stack.length < MAX_PIECE_COUNT)
    (hpush : b.push v = some b2) :
    b2.pop = some (pieceMapAt v, b) := by
  unfold Board.push at hpush
  by_cases hb : b.bits &&& (b.bitmaps.getD v.idx 0 <<< b.first_empty_square) % 2 ^ 64 ≠ 0
  · rw [if_pos hb] at hpush; cases hpush
  · rw [if_neg hb] at hpush
    have h0 : b.bits &&& (b.bitmaps.getD v.idx 0 <<< b.first_empty_square) % 2 ^ 64 = 0 :=
      not_ne_iff.mp hb
    have hm : (b.bitmaps.getD v.idx 0 <<< b.first_empty_square) % 2 ^ 64 < 2 ^ 64 :=
      Nat.mod_lt _ (Nat.pos_pow_of_pos 64 (by omega))
    injection hpush with hpush
    subst hpush
    simp only [Board.pop, List.getLast?_concat, List.dropLast_concat, Option.some.injEq,
      Prod.mk.injEq]
    refine ⟨trivial, ?_⟩
    rw [lor_land_not_eq hbits hm h0]

/-- Witness for `c4_push_then_pop`: pushing `I2` on a fresh 1-by-4 board and
popping it returns kind `I` and the original board. -/
theorem c4_push_then_pop_witness :
    (Board.new 1 4).bits < 2 ^ 64 ∧ (Board.new 1 4).stack.length < MAX_PIECE_COUNT ∧
      ∃ b2, (Board.new 1 4).push .I2 = some b2 ∧
        b2.pop = some (pieceMapAt .I2, Board.new 1 4) :=
  ⟨by decide, by decide,
    ⟨_, rfl, c4_push_then_pop (Board.new 1 4) .I2 _ (by decide) (by decide) rfl⟩⟩

/-! ## Claim C5: sentinel and padding bits stay set -/

theorem foldl_or_testBit (l : List Nat) (init i : Nat) :
    ((l.foldl (fun b n => b ||| (1 <<< n) % 2 ^ 64) init).testBit i = true) ↔
      (init.testBit i = true ∨ (i ∈ l ∧ i < 64)) := by
  induction l generalizing init with
  | nil => simp
  | cons n rest ih =>
    rw [List.foldl_cons, ih]
    have hstep : ((init ||| (1 <<< n) % 2 ^ 64).testBit i = true) ↔
        (init.testBit i = true ∨ (i = n ∧ i < 64)) := by
      rw [Nat.testBit_lor, Nat.shiftLeft_eq, one_mul, Bool.or_eq_true,
        Nat.testBit_mod_two_pow, Nat.testBit_two_pow]
      constructor
      · rintro (h | h)
        · exact Or.inl h
        · simp only [Bool.and_eq_true, decide_eq_true_eq] at h
          exact Or.inr ⟨h.2.symm, h.1⟩
      · rintro (h | ⟨rfl, h2⟩)
        · exact Or.inl h
        · exact Or.inr (by simp [h2])
    rw [hstep, List.mem_cons]
    tauto

theorem foldl_or_lt (l : List Nat) (init : Nat) (h : init < 2 ^ 64) :
    l.foldl (fun b n => b ||| (1 <<< n) % 2 ^ 64) init < 2 ^ 64 := by
  induction l generalizing init with
  | nil => exact h
  | cons n rest ih =>
    exact ih _ (Nat.or_lt_two_pow h (Nat.mod_lt _ (Nat.pos_pow_of_pos 64 (by omega))))

theorem newBits_eq (row_count col_count : Nat) :
    (Board.new row_count col_count).bits =
      (List.range' col_count row_count (col_count + 1)).foldl
        (fun b n => b ||| (1 <<< n) % 2 ^ 64)
        ((U64_MAX <<< ((col_count + 1) * row_count)) % 2 ^ 64) := rfl

theorem newBits_lt (row_count col_count : Nat) :
    (Board.new row_count col_count).bits < 2 ^ 64 := by
  rw [newBits_eq]
  exact foldl_or_lt _ _ (Nat.mod_lt _ (Nat.pos_pow_of_pos 64 (by omega)))

theorem newBits_testBit (row_count col_count i : Nat) (hi : i < 64)
    (h : (i % (col_count + 1) = col_count ∧ i < (col_count + 1) * row_count) ∨
      (col_count + 1) * row_count ≤ i) :
    (Board.new row_count col_count).bits.testBit i = true := by
  rw [newBits_eq, foldl_or_testBit]
  rcases h with ⟨hmod, harea⟩ | harea
  · refine Or.inr ⟨?_, hi⟩
    rw [List.mem_range']
    refine ⟨i / (col_count + 1), ?_, ?_⟩
    · have := Nat.div_add_mod i (col_count + 1)
      rw [Nat.div_lt_iff_lt_mul (by omega), Nat.mul_comm]
      exact harea
    · have := Nat.div_add_mod i (col_count + 1)
      omega
  · refine Or.inl ?_
    rw [Nat.testBit_mod_two_pow, Nat.testBit_shiftLeft]
    have h1 : U64_MAX.testBit (i - (col_count + 1) * row_count) = true := by
      simp only [U64_MAX, Nat.testBit_two_pow_sub_one]
      simp
      omega
    simp [hi, harea, h1]

theorem mask_stays_in_lor {mask a m : Nat} (h : mask &&& a = mask) :
    mask &&& (a ||| m) = mask := by
  apply Nat.eq_of_testBit_eq
  intro i
  have hbit := congrArg (fun x => Nat.testBit x i) h
  simp only [Nat.testBit_land] at hbit
  simp only [Nat.testBit_land, Nat.testBit_lor]
  cases hm : mask.testBit i <;> cases ha : a.testBit i <;> simp_all

theorem disjoint_of_mask_subset {mask bits bm : Nat} (hsub : mask &&& bits = mask)
    (hd : bits &&& bm = 0) : bm &&& mask = 0 := by
  apply Nat.eq_of_testBit_eq
  intro i
  have h1 := congrArg (fun x => Nat.testBit x i) hsub
  have h2 := congrArg (fun x => Nat.testBit x i) hd
  simp only [Nat.testBit_land, Nat.zero_testBit] at h1 h2 ⊢
  cases hm : mask.testBit i <;> cases hb : bits.testBit i <;> simp_all

theorem mask_stays_in_land_not {mask bits m : Nat} (hmask : mask < 2 ^ 64)
    (hsub : mask &&& bits = mask) (hd : m &&& mask = 0) :
    mask &&& (bits &&& (U64_MAX ^^^ m)) = mask := by
  apply Nat.eq_of_testBit_eq
  intro i
  have h1 := congrArg (fun x => Nat.testBit x i) hsub
  have h2 := congrArg (fun x => Nat.testBit x i) hd
  simp only [Nat.testBit_land, Nat.zero_testBit] at h1 h2
  simp only [Nat.testBit_land, Nat.testBit_xor, U64_MAX, Nat.testBit_two_pow_sub_one]
  by_cases hi : i < 64
  · simp only [hi, decide_True]
    cases hm : mask.testBit i <;> cases hb : bits.testBit i <;>
      cases hmm : m.testBit i <;> simp_all
  · have hmf : mask.testBit i = false :=
      Nat.testBit_lt_two_pow (lt_of_lt_of_le hmask (Nat.pow_le_pow_right (by omega) (by omega)))
    simp [hmf]

theorem reach_inv {row_count col_count : Nat} {b : Board}
    (h : Reach row_count col_count b) : BoardInv row_count col_count b := by
  induction h with
  | base =>
    refine ⟨newBits_lt row_count col_count, Nat.and_self _, ?_⟩
    intro e he
    exact absurd he (by simp [Board.new])
  | push b b2 v _ hp ih =>
    obtain ⟨hlt, hsub, hstack⟩ := ih
    unfold Board.push at hp
    by_cases hb : b.bits &&& (b.bitmaps.getD v.idx 0 <<< b.first_empty_square) % 2 ^ 64 ≠ 0
    · rw [if_pos hb] at hp; cases hp
    · rw [if_neg hb] at hp
      have h0 : b.bits &&& (b.bitmaps.getD v.idx 0 <<< b.first_empty_square) % 2 ^ 64 = 0 :=
        not_ne_iff.mp hb
      have hm : (b.bitmaps.getD v.idx 0 <<< b.first_empty_square) % 2 ^ 64 < 2 ^ 64 :=
        Nat.mod_lt _ (Nat.pos_pow_of_pos 64 (by omega))
      injection hp with hp
      subst hp
      refine ⟨Nat.or_lt_two_pow hlt hm, mask_stays_in_lor hsub, ?_⟩
      intro e he
      rcases List.mem_append.mp he with he | he
      · exact hstack e he
      · rcases List.mem_singleton.mp he with rfl
        exact ⟨disjoint_of_mask_subset hsub h0, hm⟩
  | pop b b2 k _ hp ih =>
    obtain ⟨hlt, hsub, hstack⟩ := ih
    unfold Board.pop at hp
    cases hl : b.stack.getLast? with
    | none => rw [hl] at hp; cases hp
    | some e =>
      rw [hl] at hp
      obtain ⟨bm, kind⟩ := e
      injection hp with hp1
      injection hp1 with hk hp2
      subst hp2
      have hmem : (bm, kind) ∈ b.stack := List.mem_of_getLast?_eq_some hl
      obtain ⟨hdisj, hbm⟩ := hstack _ hmem
      refine ⟨Nat.and_lt_two_pow _ (Nat.xor_lt_two_pow
          (Nat.sub_lt (Nat.pos_pow_of_pos 64 (by omega)) Nat.one_pos) hbm) |>.trans_le (le_refl _),
        mask_stays_in_land_not (newBits_lt _ _) hsub hdisj, ?_⟩
      intro e he
      exact hstack e (List.Sublist.subset (List.dropLast_sublist b.stack) he)

/-- C5: on every board reachable from `Board::new(row_count, column_count)`
by any sequence of `push` and `pop` operations, every sentinel-column bit
(index `≡ width - 1 (mod width)` within the board area, `width =
column_count + 1`) and every bit of the 64-bit occupancy word at or beyond
`width * height` is set: `push` never claims such a bit and `pop` never
clears one. -/
theorem c5_sentinel_padding_always_set (row_count col_count : Nat) (b : Board)
    (h : Reach row_count col_count b) :
    ∀ i : Nat, i < 64 →
      ((i % (col_count + 1) = col_count ∧ i < (col_count + 1) * row_count) ∨
        (col_count + 1) * row_count ≤ i) →
      b.bits.testBit i = true := by
  intro i hi hcase
  obtain ⟨_, hsub, _⟩ := reach_inv h
  have hmask := newBits_testBit row_count col_count i hi hcase
  have hbit := congrArg (fun x => Nat.testBit x i) hsub
  simp only [Nat.testBit_land, hmask, Bool.true_and] at hbit
  exact hbit

/-- Witness for `c5_sentinel_padding_always_set`: on the freshly constructed
1-by-4 board, bit 4 — the sentinel column of row 0 — is set. -/
theorem c5_sentinel_padding_always_set_witness :
    Reach 1 4 (Board.new 1 4) ∧ (Board.new 1 4).bits.testBit 4 = true :=
  ⟨.base, c5_sentinel_padding_always_set 1 4 (Board.new 1 4) .base 4 (by omega)
    (Or.inl (by omega))⟩

/-! ## Claim C9: the pretty rendering never emits the placeholder -/

theorem vertexChar_ne_placeholder (a b c d : Option Nat) : vertexChar a b c d ≠ '?' := by
  by_cases hu : a = b <;> by_cases hd2 : c = d <;> by_cases hl : a = c <;> by_cases hr : b = d <;>
    first
      | exact absurd ((hl.trans hd2).trans hr.symm) hu
      | exact absurd (hl.symm.trans (hu.trans hr)) hd2
      | exact absurd (hu.trans (hr.trans hd2.symm)) hl
      | exact absurd (hu.symm.trans (hl.trans hd2)) hr
      | (subst_vars
         simp_all [vertexChar, BOX_CHARS]
         try (split <;> simp_all))

/-- C9: at every grid vertex the 4-bit boundary code derived from the four
surrounding cell labels is never a single-edge code, so the pretty
(alternate) rendering of a `Position` never emits the placeholder character
`'?'` — whenever the rendering is defined it contains no `'?'`. -/
theorem c9_pretty_never_placeholder (p : Position) (out : List Char)
    (h : prettyRender? p = some out) : '?' ∉ out := by
  unfold prettyRender? at h
  cases hf : p.squares.findIdx? (fun s => s == 10) with
  | none => rw [hf] at h; cases h
  | some cc =>
    rw [hf] at h
    injection h with h
    subst h
    intro hmem
    rw [List.mem_flatten] at hmem
    obtain ⟨row, hrow, hc⟩ := hmem
    rw [List.mem_map] at hrow
    obtain ⟨rn, _, hrn⟩ := hrow
    subst hrn
    unfold prettyRow at hc
    rcases List.mem_append.mp hc with hc | hc
    · rw [List.mem_map] at hc
      obtain ⟨cn, _, hcn⟩ := hc
      exact vertexChar_ne_placeholder _ _ _ _ hcn
    · simp at hc

/-- Witness for `c9_pretty_never_placeholder`: the pretty rendering of the
1-by-1 empty-board `Position` `".\n"` is defined and contains no `'?'`. -/
theorem c9_pretty_never_placeholder_witness :
    prettyRender? ⟨stringBytes ".\n"⟩ =
      some ['┌', '─', '┐', '\n', '└', '─', '┘', '\n'] ∧
    '?' ∉ (['┌', '─', '┐', '\n', '└', '─', '┘', '\n'] : List Char) :=
  ⟨rfl, c9_pretty_never_placeholder ⟨stringBytes ".\n"⟩ _ rfl⟩

/-! ## Claim C10: labels are consecutive letters from 'A' -/

theorem mem_shape_foldl {width marker shift x : Nat} :
    ∀ (shape : List (Int × Int)) (sq : List Nat),
      x ∈ shape.foldl
        (fun sq off =>
          let index : Int := (shift : Int) + ((width : Int) * off.1 + off.2)
          if index < 0 then sq else sq.set index.toNat marker) sq →
      x ∈ sq ∨ x = marker := by
  intro shape
  induction shape with
  | nil => intro sq h; exact Or.inl h
  | cons o rest ih =>
    intro sq h
    rw [List.foldl_cons] at h
    rcases ih _ h with h2 | h2
    · have h3 : x ∈ (if ((shift : Int) + ((width : Int) * o.1 + o.2)) < 0 then sq
          else sq.set ((shift : Int) + ((width : Int) * o.1 + o.2)).toNat marker) := h2
      by_cases hidx : ((shift : Int) + ((width : Int) * o.1 + o.2)) < 0
      · rw [if_pos hidx] at h3; exact Or.inl h3
      · rw [if_neg hidx] at h3
        exact List.mem_or_eq_of_mem_set h3
    · exact Or.inr h2

theorem mem_posWriteShape {width marker shift x : Nat} {shape : PieceShape}
    {squares : List Nat} (hx : x ∈ posWriteShape width marker shift shape squares) :
    x ∈ squares ∨ x = marker := by
  unfold posWriteShape at hx
  rcases mem_shape_foldl shape _ hx with h | h
  · exact List.mem_or_eq_of_mem_set h
  · exact Or.inr h

theorem mem_set_fold_newline {x : Nat} :
    ∀ (l : List Nat) (sq : List Nat),
      x ∈ l.foldl (fun sq n => sq.set n 10) sq → x ∈ sq ∨ x = 10 := by
  intro l
  induction l with
  | nil => intro sq h; exact Or.inl h
  | cons n rest ih =>
    intro sq h
    rw [List.foldl_cons] at h
    rcases ih _ h with h2 | h2
    · exact List.mem_or_eq_of_mem_set h2
    · exact Or.inr h2

theorem mem_posEntriesGo {b : Board} {x : Nat} :
    ∀ (entries : List (Nat × Piece)) (index : Nat) (sq out : List Nat),
      posEntriesGo b index entries sq = some out → x ∈ out →
      x ∈ sq ∨ ∃ k, index ≤ k ∧ k < index + entries.length ∧ x = k + 65 := by
  intro entries
  induction entries with
  | nil =>
    intro index sq out h hx
    injection h with h
    subst h
    exact Or.inl hx
  | cons e rest ih =>
    intro index sq out h hx
    obtain ⟨bitmap, piece⟩ := e
    simp only [posEntriesGo] at h
    cases hfi : b.bitmaps.findIdx? (fun bm => bm == bitmap >>> u64TrailingZeros bitmap) with
    | none => rw [hfi] at h; cases h
    | some i =>
      rw [hfi] at h
      dsimp only at h
      cases hfp : fixedPieceOfIdx i with
      | none => rw [hfp] at h; cases h
      | some fp =>
        rw [hfp] at h
        rcases ih _ _ _ h hx with h2 | ⟨k, hk1, hk2, hk3⟩
        · rcases mem_posWriteShape h2 with h3 | h3
          · exact Or.inl h3
          · refine Or.inr ⟨index, le_refl _, ?_, by omega⟩
            simp
        · refine Or.inr ⟨k, by omega, ?_, hk3⟩
          simp only [List.length_cons]
          omega

/-! ## Claim C2, stage A: the solver invariant along successful branches -/

theorem exists_seven {l : List Nat} (h : l.length = 7) :
    ∃ a b c d e f g, l = [a, b, c, d, e, f, g] := by
  match l, h with
  | [a, b, c, d, e, f, g], _ => exact ⟨a, b, c, d, e, f, g, rfl⟩

theorem PieceCollection.count_remove {pc : PieceCollection} (h7 : pc.counts.length = 7)
    (t k : Piece) :
    (pc.remove t).count k = if k = t then pc.count t - 1 else pc.count k := by
  obtain ⟨cs⟩ := pc
  obtain ⟨a, b, c, d, e, f, g, hl⟩ := exists_seven h7
  simp only at hl
  subst hl
  cases t <;> cases k <;>
    simp [PieceCollection.remove, PieceCollection.count, Piece.idx]

theorem PieceCollection.length_remove (pc : PieceCollection) (t : Piece) :
    (pc.remove t).counts.length = pc.counts.length := by
  simp [PieceCollection.remove]

theorem PieceCollection.count_all_remove {pc : PieceCollection} (h7 : pc.counts.length = 7)
    (t : Piece) (ht : pc.count t ≠ 0) :
    (pc.remove t).count_all + 1 = pc.count_all := by
  obtain ⟨cs⟩ := pc
  obtain ⟨a, b, c, d, e, f, g, hl⟩ := exists_seven h7
  simp only at hl
  subst hl
  cases t <;>
    simp [PieceCollection.remove, PieceCollection.count, PieceCollection.count_all,
      Piece.idx] at ht ⊢ <;>
    omega

theorem foldOrBitmaps_append (l : List (Nat × Piece)) (e : Nat × Piece) (acc : Nat) :
    foldOrBitmaps (l ++ [e]) acc = foldOrBitmaps l acc ||| e.1 := by
  simp [foldOrBitmaps, List.foldl_append]

theorem foldOrBitmaps_cons (e : Nat × Piece) (l : List (Nat × Piece)) (acc : Nat) :
    foldOrBitmaps (e :: l) acc = foldOrBitmaps l (acc ||| e.1) := rfl

theorem land_lor_eq_zero_iff {a b x : Nat} :
    (a ||| b) &&& x = 0 ↔ a &&& x = 0 ∧ b &&& x = 0 := by
  constructor
  · intro h
    constructor <;>
      · apply Nat.eq_of_testBit_eq
        intro i
        have hi := congrArg (fun y => Nat.testBit y i) h
        simp only [Nat.testBit_land, Nat.testBit_lor, Nat.zero_testBit,
          Bool.and_eq_false_iff, Bool.or_eq_false_iff] at hi ⊢
        tauto
  · rintro ⟨h1, h2⟩
    apply Nat.eq_of_testBit_eq
    intro i
    have t1 := congrArg (fun y => Nat.testBit y i) h1
    have t2 := congrArg (fun y => Nat.testBit y i) h2
    simp only [Nat.testBit_land, Nat.testBit_lor, Nat.zero_testBit,
      Bool.and_eq_false_iff, Bool.or_eq_false_iff] at t1 t2 ⊢
    tauto

theorem foldOrBitmaps_disj {x : Nat} :
    ∀ (l : List (Nat × Piece)) (acc : Nat), foldOrBitmaps l acc &&& x = 0 →
      acc &&& x = 0 ∧ ∀ e ∈ l, e.1 &&& x = 0 := by
  intro l
  induction l with
  | nil => intro acc h; exact ⟨h, by simp⟩
  | cons e rest ih =>
    intro acc h
    rw [foldOrBitmaps_cons] at h
    obtain ⟨hacc, hrest⟩ := ih _ h
    obtain ⟨h1, h2⟩ := land_lor_eq_zero_iff.mp hacc
    refine ⟨h1, ?_⟩
    intro e2 he2
    rcases List.mem_cons.mp he2 with rfl | he2
    · exact h2
    · exact hrest e2 he2

theorem foldOrBitmaps_lt {l : List (Nat × Piece)} {acc : Nat} (hacc : acc < 2 ^ 64)
    (hl : ∀ e ∈ l, e.1 < 2 ^ 64) : foldOrBitmaps l acc < 2 ^ 64 := by
  induction l generalizing acc with
  | nil => exact hacc
  | cons e rest ih =>
    rw [foldOrBitmaps_cons]
    exact ih (Nat.or_lt_two_pow hacc (hl e (by simp))) (fun e2 he2 => hl e2 (by simp [he2]))

theorem FixedPiece.idx_lt (v : FixedPiece) : v.idx < 19 := by
  cases v <;> simp [FixedPiece.idx]

theorem piece_shapes_length : piece_shapes.length = 19 := rfl

theorem new_bitmaps_getD (row_count col_count : Nat) (v : FixedPiece) :
    (Board.new row_count col_count).bitmaps.getD v.idx 0
      = variantBitmap (col_count + 1) (piece_shape v) := by
  have h19 : v.idx < piece_shapes.length := piece_shapes_length ▸ v.idx_lt
  show (piece_shapes.map (variantBitmap (col_count + 1))).getD v.idx 0 = _
  rw [List.getD_eq_getElem?_getD, List.getElem?_map, List.getElem?_eq_getElem h19]
  simp [piece_shape, List.getD_eq_getElem?_getD, List.getElem?_eq_getElem h19]

theorem SolverInv.bits_lt {row_count col_count : Nat} {input : PieceCollection} {b : Board}
    {pcs : PieceCollection} (inv : SolverInv row_count col_count input b pcs) :
    b.bits < 2 ^ 64 := by
  rw [inv.hbits]
  apply foldOrBitmaps_lt (newBits_lt row_count col_count)
  intro e he
  obtain ⟨v, s, _, he1, _⟩ := inv.hprov e he
  rw [he1]
  exact Nat.mod_lt _ (Nat.pos_pow_of_pos 64 (by omega))

theorem SolverInv.push_preserve {row_count col_count : Nat} {input : PieceCollection}
    {b : Board} {pcs : PieceCollection}
    (inv : SolverInv row_count col_count input b pcs)
    (v : FixedPiece) (b2 : Board) (ht : ¬pcs.count (pieceMapAt v) = 0)
    (hnc : b.is_complete = false) (hp : b.push v = some b2) :
    SolverInv row_count col_count input b2 (pcs.remove (pieceMapAt v)) := by
  unfold Board.push at hp
  by_cases hb : b.bits &&& (b.bitmaps.getD v.idx 0 <<< b.first_empty_square) % 2 ^ 64 ≠ 0
  · rw [if_pos hb] at hp; cases hp
  · rw [if_neg hb] at hp
    have h0 := not_ne_iff.mp hb
    injection hp with hp
    subst hp
    have hne : b.bits ≠ U64_MAX := by
      intro hx
      rw [Board.is_complete] at hnc
      simp [hx] at hnc
    have hx0 : b.bits ^^^ U64_MAX ≠ 0 := fun hz => hne (Nat.xor_eq_zero.mp hz)
    have hxlt : b.bits ^^^ U64_MAX < 2 ^ 64 :=
      Nat.xor_lt_two_pow inv.bits_lt
        (Nat.sub_lt (Nat.pos_pow_of_pos 64 (by omega)) Nat.one_pos)
    have hfes : b.first_empty_square < 64 := (u64TrailingZeros_spec hx0 hxlt).1
    have hbmv : b.bitmaps.getD v.idx 0 = variantBitmap (col_count + 1) (piece_shape v) := by
      rw [inv.hbm]; exact new_bitmaps_getD _ _ v
    have hmlt : (b.bitmaps.getD v.idx 0 <<< b.first_empty_square) % 2 ^ 64 < 2 ^ 64 :=
      Nat.mod_lt _ (Nat.pos_pow_of_pos 64 (by omega))
    have hbitsfold := inv.hbits
    have hcomp := foldOrBitmaps_disj b.stack _ (hbitsfold ▸ h0)
    refine ⟨inv.hw, inv.hh, inv.hbm, ?_, ?_, ?_, ?_, ?_, ?_, ?_⟩
    · show b.bits ||| _ = foldOrBitmaps (b.stack ++ [_]) _
      rw [foldOrBitmaps_append, inv.hbits]
    · rw [List.pairwise_append]
      refine ⟨inv.hdisj, List.pairwise_singleton _ _, ?_⟩
      intro e1 he1 e2 he2
      rcases List.mem_singleton.mp he2 with rfl
      exact (hcomp.2 e1 he1)
    · intro e he
      rcases List.mem_append.mp he with he | he
      · exact inv.hmaskdisj e he
      · rcases List.mem_singleton.mp he with rfl
        have := hcomp.1
        apply Nat.eq_of_testBit_eq
        intro i
        have t1 := congrArg (fun y => Nat.testBit y i) this
        simp only [Nat.testBit_land, Nat.zero_testBit, Bool.and_eq_false_iff] at t1 ⊢
        tauto
    · intro e he
      rcases List.mem_append.mp he with he | he
      · exact inv.hprov e he
      · rcases List.mem_singleton.mp he with rfl
        exact ⟨v, b.first_empty_square, hfes, by rw [hbmv], rfl⟩
    · intro k
      rw [List.filter_append, List.length_append,
        PieceCollection.count_remove inv.hlen7 (pieceMapAt v) k, inv.hcounts k]
      by_cases hk : k = pieceMapAt v
      · subst hk
        have hcnt : pcs.count (pieceMapAt v) ≥ 1 := Nat.one_le_iff_ne_zero.mpr ht
        simp [List.filter_cons]
        omega
      · have hbeq : (pieceMapAt v == k) = false := by
          simp only [beq_eq_false_iff_ne, ne_eq]
          exact fun hx => hk hx.symm
        simp [List.filter_cons, hbeq, hk]
    · rw [List.length_append]
      have h1 := PieceCollection.count_all_remove inv.hlen7 (pieceMapAt v) ht
      have h2 := inv.hsum
      simp only [List.length_singleton]
      omega
    · rw [PieceCollection.length_remove]
      exact inv.hlen7

theorem solver_some_invariant {row_count col_count : Nat} {input : PieceCollection} :
    ∀ (fuel : Nat) (b : Board) (pcs : PieceCollection) (p : Position),
      SolverInv row_count col_count input b pcs →
      Solver.solve_one fuel b pcs = some p →
      ∃ b2 pcs2, SolverInv row_count col_count input b2 pcs2 ∧
        b2.is_complete = true ∧ b2.position? = some p := by
  intro fuel
  induction fuel with
  | zero => intro b pcs p _ h; cases h
  | succ fuel ih =>
    intro b pcs p inv h
    rw [Solver.solve_one] at h
    by_cases hc : b.is_complete
    · rw [if_pos hc] at h
      exact ⟨b, pcs, inv, hc, h⟩
    · rw [if_neg hc] at h
      obtain ⟨v, _, hf⟩ := List.exists_of_findSome?_eq_some h
      dsimp only at hf
      by_cases hcnt : pcs.count (pieceMapAt v) = 0
      · rw [if_pos hcnt] at hf; cases hf
      · rw [if_neg hcnt] at hf
        cases hpush : b.push v with
        | none => rw [hpush] at hf; cases hf
        | some b3 =>
          rw [hpush] at hf
          exact ih b3 _ p
            (inv.push_preserve v b3 hcnt (Bool.eq_false_iff.mpr hc) hpush) hf

/-! ## Claim C2, stage B: bit counting at completion -/

theorem popCount64_lor {a b : Nat} (hd : a &&& b = 0) :
    popCount64 (a ||| b) = popCount64 a + popCount64 b := by
  unfold popCount64
  have hsplit : (Finset.range 64).filter (fun i => (a ||| b).testBit i)
      = ((Finset.range 64).filter (fun i => a.testBit i))
        ∪ ((Finset.range 64).filter (fun i => b.testBit i)) := by
    ext i
    simp [Nat.testBit_lor]
    tauto
  rw [hsplit]
  apply Finset.card_union_of_disjoint
  rw [Finset.disjoint_left]
  intro i hi1 hi2
  simp only [Finset.mem_filter, Finset.mem_range] at hi1 hi2
  have := congrArg (fun y => Nat.testBit y i) hd
  simp [Nat.testBit_land, hi1.2, hi2.2] at this

theorem popCount64_lor_le (a b : Nat) :
    popCount64 (a ||| b) ≤ popCount64 a + popCount64 b := by
  unfold popCount64
  have hsub : (Finset.range 64).filter (fun i => (a ||| b).testBit i)
      ⊆ ((Finset.range 64).filter (fun i => a.testBit i))
        ∪ ((Finset.range 64).filter (fun i => b.testBit i)) := by
    intro i hi
    simp only [Finset.mem_filter, Finset.mem_range, Nat.testBit_lor,
      Bool.or_eq_true, Finset.mem_union] at hi ⊢
    tauto
  exact le_trans (Finset.card_le_card hsub) (Finset.card_union_le _ _)

theorem popCount64_zero : popCount64 0 = 0 := by decide

theorem popCount64_max : popCount64 U64_MAX = 64 := by decide

theorem popCount64_two_pow {n : Nat} (hn : n < 64) : popCount64 (2 ^ n) = 1 := by
  unfold popCount64
  have : (Finset.range 64).filter (fun i => (2 ^ n).testBit i) = {n} := by
    ext i
    simp only [Finset.mem_filter, Finset.mem_range, Nat.testBit_two_pow,
      decide_eq_true_eq, Finset.mem_singleton]
    constructor
    · rintro ⟨_, rfl⟩; rfl
    · rintro rfl; exact ⟨hn, rfl⟩
  rw [this, Finset.card_singleton]

theorem popCount64_single_le (n : Nat) : popCount64 ((1 <<< n) % 2 ^ 64) ≤ 1 := by
  by_cases hn : n < 64
  · rw [Nat.shiftLeft_eq, one_mul, Nat.mod_eq_of_lt (Nat.pow_lt_pow_right (by omega) hn),
      popCount64_two_pow hn]
  · have hdvd : (2 ^ 64 : Nat) ∣ 2 ^ n := pow_dvd_pow 2 (by omega)
    have hz : (1 <<< n) % 2 ^ 64 = 0 := by
      rw [Nat.shiftLeft_eq, one_mul, Nat.mod_eq_zero_of_dvd hdvd]
    rw [hz, popCount64_zero]
    omega

theorem lt_two_pow_of_high_bits {x : Nat} (h : ∀ i, 64 ≤ i → x.testBit i = false) :
    x < 2 ^ 64 := by
  by_contra hge
  have hq : x / 2 ^ 64 ≠ 0 := by
    intro h0
    rw [Nat.div_eq_zero_iff (by positivity)] at h0
    omega
  obtain ⟨j, hj⟩ := Nat.ne_implies_bit_diff hq
  rw [Nat.zero_testBit] at hj
  have hj2 : (x / 2 ^ 64).testBit j = true := by simpa using hj
  have hx : x.testBit (64 + j) = true := by
    rw [← Nat.shiftRight_eq_div_pow] at hj2
    rwa [Nat.testBit_shiftRight] at hj2
  exact absurd hx (by simp [h (64 + j) (by omega)])

theorem popCount64_padding {area : Nat} (h : area ≤ 64) :
    popCount64 ((U64_MAX <<< area) % 2 ^ 64) = 64 - area := by
  unfold popCount64
  have heq : (Finset.range 64).filter (fun i => ((U64_MAX <<< area) % 2 ^ 64).testBit i)
      = Finset.Ico area 64 := by
    ext i
    simp only [Finset.mem_filter, Finset.mem_range, Nat.testBit_mod_two_pow,
      Nat.testBit_shiftLeft, U64_MAX, Nat.testBit_two_pow_sub_one, Finset.mem_Ico,
      Bool.and_eq_true, decide_eq_true_eq, ge_iff_le]
    omega
  rw [heq, Nat.card_Ico]

theorem padding_testBit_low {area i : Nat} (hi : i < area) :
    ((U64_MAX <<< area) % 2 ^ 64).testBit i = false := by
  simp only [Nat.testBit_mod_two_pow, Nat.testBit_shiftLeft, Bool.and_eq_false_iff]
  right
  simp only [Bool.and_eq_false_iff, ge_iff_le, decide_eq_false_iff_not]
  left
  omega

theorem popCount64_sentinel_fold :
    ∀ (l : List Nat) (acc : Nat), l.Nodup → (∀ n ∈ l, n < 64 ∧ acc.testBit n = false) →
      popCount64 (l.foldl (fun b n => b ||| (1 <<< n) % 2 ^ 64) acc)
        = popCount64 acc + l.length := by
  intro l
  induction l with
  | nil => intro acc _ _; simp
  | cons n rest ih =>
    intro acc hnd hl
    obtain ⟨hn64, hnbit⟩ := hl n (by simp)
    have hpow : (1 <<< n) % 2 ^ 64 = 2 ^ n := by
      rw [Nat.shiftLeft_eq, one_mul,
        Nat.mod_eq_of_lt (Nat.pow_lt_pow_right (by omega) hn64)]
    have hdisj : acc &&& 2 ^ n = 0 := by
      apply Nat.eq_of_testBit_eq
      intro i
      simp only [Nat.testBit_land, Nat.testBit_two_pow, Nat.zero_testBit,
        Bool.and_eq_false_iff]
      by_cases hin : n = i
      · subst hin; left; exact hnbit
      · right; simpa using hin
    rw [List.foldl_cons, ih _ (List.Nodup.of_cons hnd) ?_, hpow, popCount64_lor hdisj,
      popCount64_two_pow hn64, List.length_cons]
    · omega
    · intro m hm
      obtain ⟨hm64, hmbit⟩ := hl m (by simp [hm])
      refine ⟨hm64, ?_⟩
      rw [hpow, Nat.testBit_lor, hmbit, Nat.testBit_two_pow]
      have hmn : n ≠ m := by
        intro hx; subst hx
        exact (List.nodup_cons.mp hnd).1 hm
      simp [hmn]

theorem popCount64_newBits (row_count col_count : Nat)
    (harea : (col_count + 1) * row_count ≤ 64) :
    popCount64 (Board.new row_count col_count).bits
      = (64 - (col_count + 1) * row_count) + row_count := by
  rw [newBits_eq]
  rw [popCount64_sentinel_fold _ _ (List.nodup_range' _ _ _ (by omega)) ?_]
  · rw [popCount64_padding harea, List.length_range']
  · intro n hn
    rw [List.mem_range'] at hn
    obtain ⟨k, hk, rfl⟩ := hn
    have hlt : col_count + (col_count + 1) * k < (col_count + 1) * row_count := by
      have h1 : k + 1 ≤ row_count := hk
      calc col_count + (col_count + 1) * k < (col_count + 1) * (k + 1) := by ring_nf; omega
        _ ≤ (col_count + 1) * row_count := Nat.mul_le_mul_left _ h1
    exact ⟨by omega, padding_testBit_low hlt⟩

theorem popCount64_foldOr :
    ∀ (l : List (Nat × Piece)) (acc : Nat),
      l.Pairwise (fun e1 e2 => e1.1 &&& e2.1 = 0) →
      (∀ e ∈ l, e.1 &&& acc = 0) →
      popCount64 (foldOrBitmaps l acc)
        = popCount64 acc + (l.map (fun e => popCount64 e.1)).sum := by
  intro l
  induction l with
  | nil => intro acc _ _; simp [foldOrBitmaps]
  | cons e rest ih =>
    intro acc hpw hacc
    rw [foldOrBitmaps_cons, ih _ (List.Pairwise.of_cons hpw) ?_]
    · have hd : acc &&& e.1 = 0 := by
        rw [Nat.land_comm]; exact hacc e (by simp)
      rw [popCount64_lor hd, List.map_cons, List.sum_cons]
      omega
    · intro e2 he2
      have h1 : e2.1 &&& acc = 0 := hacc e2 (by simp [he2])
      have h2 : e.1 &&& e2.1 = 0 := (List.pairwise_cons.mp hpw).1 e2 he2
      apply Nat.eq_of_testBit_eq
      intro i
      have t1 := congrArg (fun y => Nat.testBit y i) h1
      have t2 := congrArg (fun y => Nat.testBit y i) h2
      simp only [Nat.testBit_land, Nat.testBit_lor, Nat.zero_testBit,
        Bool.and_eq_false_iff, Bool.or_eq_false_iff] at t1 t2 ⊢
      tauto

theorem popCount64_shape_fold_le (w : Nat) :
    ∀ (shape : List (Int × Int)) (acc : Nat),
      popCount64 (shape.foldl
        (fun acc sq => acc ||| u64ShlI 1 ((w : Int) * sq.1 + sq.2)) acc)
        ≤ popCount64 acc + shape.length := by
  intro shape
  induction shape with
  | nil => intro acc; simp
  | cons o rest ih =>
    intro acc
    rw [List.foldl_cons]
    calc popCount64 (rest.foldl _ (acc ||| u64ShlI 1 ((w : Int) * o.1 + o.2)))
        ≤ popCount64 (acc ||| u64ShlI 1 ((w : Int) * o.1 + o.2)) + rest.length := ih _
      _ ≤ popCount64 acc + popCount64 (u64ShlI 1 ((w : Int) * o.1 + o.2)) + rest.length :=
          by have := popCount64_lor_le acc (u64ShlI 1 ((w : Int) * o.1 + o.2)); omega
      _ ≤ popCount64 acc + 1 + rest.length :=
          by have := popCount64_single_le ((w : Int) * o.1 + o.2).toNat; unfold u64ShlI; omega
      _ ≤ popCount64 acc + (o :: rest).length := by simp [List.length_cons]; omega

theorem popCount64_one : popCount64 1 = 1 := by decide

theorem popCount64_variantBitmap_le (w : Nat) (v : FixedPiece) :
    popCount64 (variantBitmap w (piece_shape v)) ≤ 4 := by
  have h3 : (piece_shape v).length = 3 := by cases v <;> rfl
  have := popCount64_shape_fold_le w (piece_shape v) 1
  rw [popCount64_one, h3] at this
  exact this

theorem variantBitmap_lt (w : Nat) (shape : List (Int × Int)) :
    variantBitmap w shape < 2 ^ 64 := by
  have hstep : ∀ (l : List (Int × Int)) (acc : Nat), acc < 2 ^ 64 →
      l.foldl (fun acc sq => acc ||| u64ShlI 1 ((w : Int) * sq.1 + sq.2)) acc < 2 ^ 64 := by
    intro l
    induction l with
    | nil => intro acc h; exact h
    | cons o rest ih =>
      intro acc h
      rw [List.foldl_cons]
      refine ih _ (Nat.or_lt_two_pow h ?_)
      unfold u64ShlI
      exact Nat.mod_lt _ (Nat.pos_pow_of_pos 64 (by omega))
  exact hstep shape 1 (by norm_num)

theorem popCount64_shifted_eq (x s : Nat) :
    popCount64 ((x <<< s) % 2 ^ 64)
      = ((Finset.range 64).filter (fun j => x.testBit j ∧ j + s < 64)).card := by
  unfold popCount64
  have himg : (Finset.range 64).filter (fun i => ((x <<< s) % 2 ^ 64).testBit i)
      = ((Finset.range 64).filter (fun j => x.testBit j ∧ j + s < 64)).image (· + s) := by
    ext i
    simp only [Finset.mem_filter, Finset.mem_range, Finset.mem_image,
      Nat.testBit_mod_two_pow, Nat.testBit_shiftLeft, Bool.and_eq_true,
      decide_eq_true_eq, ge_iff_le]
    constructor
    · intro h
      obtain ⟨hi64, hsle, hbit⟩ : i < 64 ∧ s ≤ i ∧ x.testBit (i - s) = true := by tauto
      exact ⟨i - s, ⟨by omega, hbit, by omega⟩, by omega⟩
    · rintro ⟨j, ⟨hj64, hbit, hjs⟩, rfl⟩
      refine ⟨by omega, by omega, ?_⟩
      simpa [Nat.add_sub_cancel] using hbit
  rw [himg, Finset.card_image_of_injective _ (add_left_injective s)]

theorem popCount64_shifted_le (x s : Nat) :
    popCount64 ((x <<< s) % 2 ^ 64) ≤ popCount64 x := by
  rw [popCount64_shifted_eq]
  apply Finset.card_le_card
  intro j hj
  simp only [Finset.mem_filter, Finset.mem_range] at hj ⊢
  exact ⟨hj.1, hj.2.1⟩

theorem entry_exact {x s : Nat} (hxlt : x < 2 ^ 64) (hx4 : popCount64 x ≤ 4)
    (h4 : popCount64 ((x <<< s) % 2 ^ 64) = 4) :
    (x <<< s) % 2 ^ 64 = x <<< s ∧ popCount64 x = 4 ∧
      ∀ j, x.testBit j = true → j + s < 64 := by
  have hle := popCount64_shifted_le x s
  have hpc : popCount64 x = 4 := by omega
  have hsub : (Finset.range 64).filter (fun j => x.testBit j ∧ j + s < 64)
      ⊆ (Finset.range 64).filter (fun j => x.testBit j = true) := by
    intro j hj
    simp only [Finset.mem_filter, Finset.mem_range] at hj ⊢
    exact ⟨hj.1, hj.2.1⟩
  have hcards : ((Finset.range 64).filter (fun j => x.testBit j = true)).card
      ≤ ((Finset.range 64).filter (fun j => x.testBit j ∧ j + s < 64)).card := by
    rw [← popCount64_shifted_eq, h4]
    show popCount64 x ≤ _
    omega
  have hset := Finset.eq_of_subset_of_card_le hsub hcards
  have hall : ∀ j, x.testBit j = true → j + s < 64 := by
    intro j hbit
    have hj64 : j < 64 := by
      by_contra hge
      rw [Nat.testBit_lt_two_pow (lt_of_lt_of_le hxlt
        (Nat.pow_le_pow_right (by omega) (by omega)))] at hbit
      cases hbit
    have hmem : j ∈ (Finset.range 64).filter (fun j => x.testBit j = true) := by
      simp [Finset.mem_filter, Finset.mem_range, hj64, hbit]
    rw [← hset] at hmem
    simp only [Finset.mem_filter, Finset.mem_range] at hmem
    exact hmem.2.2
  refine ⟨?_, hpc, hall⟩
  apply Nat.mod_eq_of_lt
  apply lt_two_pow_of_high_bits
  intro i hi
  rw [Nat.testBit_shiftLeft]
  by_cases hsi : s ≤ i
  · simp only [ge_iff_le, hsi, decide_True, Bool.true_and]
    by_cases hbit : x.testBit (i - s) = true
    · have := hall _ hbit
      omega
    · simpa using hbit
  · simp [hsi]

theorem list_sum_le_four (l : List Nat) (h : ∀ x ∈ l, x ≤ 4) : l.sum ≤ 4 * l.length := by
  induction l with
  | nil => simp
  | cons x rest ih =>
    rw [List.sum_cons, List.length_cons]
    have h1 := h x (by simp)
    have h2 := ih (fun y hy => h y (by simp [hy]))
    omega

theorem list_all_eq_four {l : List Nat} (h : ∀ x ∈ l, x ≤ 4)
    (hs : l.sum = 4 * l.length) : ∀ x ∈ l, x = 4 := by
  induction l with
  | nil => simp
  | cons x rest ih =>
    rw [List.sum_cons, List.length_cons] at hs
    have h1 := h x (by simp)
    have h2 := list_sum_le_four rest (fun y hy => h y (by simp [hy]))
    have hx : x = 4 := by omega
    intro y hy
    rcases List.mem_cons.mp hy with rfl | hy
    · exact hx
    · exact ih (fun z hz => h z (by simp [hz])) (by omega) y hy

theorem complete_stack_analysis {row_count col_count : Nat} {input : PieceCollection}
    {b : Board} {pcs : PieceCollection}
    (inv : SolverInv row_count col_count input b pcs)
    (hcomp : b.is_complete = true)
    (harea : (col_count + 1) * row_count ≤ 64)
    (hval : 4 * input.count_all = row_count * col_count) :
    pcs.count_all = 0 ∧ b.stack.length = input.count_all ∧
      ∀ e ∈ b.stack, popCount64 e.1 = 4 := by
  have hbitsmax : b.bits = U64_MAX := by
    rw [Board.is_complete] at hcomp
    simpa using hcomp
  have hpc : popCount64 b.bits = 64 := by rw [hbitsmax, popCount64_max]
  rw [inv.hbits, popCount64_foldOr _ _ inv.hdisj inv.hmaskdisj,
    popCount64_newBits _ _ harea] at hpc
  have hA : (col_count + 1) * row_count = col_count * row_count + row_count := by ring
  have hS : (b.stack.map (fun e => popCount64 e.1)).sum = col_count * row_count := by
    omega
  have hle4 : ∀ x ∈ b.stack.map (fun e => popCount64 e.1), x ≤ 4 := by
    intro x hx
    rw [List.mem_map] at hx
    obtain ⟨e, he, rfl⟩ := hx
    obtain ⟨v, s, _, he1, _⟩ := inv.hprov e he
    rw [he1]
    exact le_trans (popCount64_shifted_le _ _) (popCount64_variantBitmap_le _ v)
  have hsumle := list_sum_le_four _ hle4
  rw [List.length_map] at hsumle
  have hlen := inv.hsum
  have hcr : col_count * row_count = row_count * col_count := Nat.mul_comm _ _
  have hsplit : b.stack.length = input.count_all ∧ pcs.count_all = 0 := by omega
  have hSfull : (b.stack.map (fun e => popCount64 e.1)).sum = 4 * b.stack.length := by
    omega
  refine ⟨hsplit.2, hsplit.1, ?_⟩
  intro e he
  exact list_all_eq_four hle4 (by rw [List.length_map]; exact hSfull) _
    (List.mem_map.mpr ⟨e, he, rfl⟩)

/-! ## Claim C2, stage C: no wraparound thanks to the sentinel column -/

theorem shape_bounds (v : FixedPiece) :
    ∀ sq ∈ piece_shape v, 0 ≤ sq.1 ∧ sq.1 ≤ 3 ∧ -2 ≤ sq.2 ∧ sq.2 ≤ 3 := by
  cases v <;> decide

theorem dc_bounds (v : FixedPiece) : ∀ d ∈ dcSetOf v, -2 ≤ d ∧ d ≤ 3 := by
  cases v <;> decide

theorem dc_star (v : FixedPiece) :
    ∀ x ∈ ([-2, -1, 0, 1, 2, 3] : List Int),
      (∃ d ∈ dcSetOf v, (d ≤ x ∧ x ≤ 0) ∨ (0 ≤ x ∧ x ≤ d)) → x ∈ dcSetOf v := by
  cases v <;> decide

theorem mem_six_of_bounds {x : Int} (h1 : -2 ≤ x) (h2 : x ≤ 3) :
    x ∈ ([-2, -1, 0, 1, 2, 3] : List Int) := by
  have : x = -2 ∨ x = -1 ∨ x = 0 ∨ x = 1 ∨ x = 2 ∨ x = 3 := by omega
  rcases this with rfl | rfl | rfl | rfl | rfl | rfl <;> simp

theorem neg_one_emod {w : Int} (hw : 2 ≤ w) : (-1 : Int) % w = w - 1 := by
  have h1 : (-1 : Int) = (w - 1) + w * (-1) := by ring
  rw [h1, Int.add_mul_emod_self_left]
  exact Int.emod_eq_of_lt (by omega) (by omega)

theorem self_emod {w e : Int} (_hw : 2 ≤ w) (h1 : 0 ≤ e) (h2 : e < w) : e % w = e :=
  Int.emod_eq_of_lt h1 h2

theorem no_wrap {v : FixedPiece} {w t : Int} (hw : 2 ≤ w) (ht0 : 0 ≤ t) (ht : t ≤ w - 2)
    (hsent : ∀ d ∈ dcSetOf v, t + d ≠ -1 ∧ t + d ≠ w - 1) :
    ∀ d ∈ dcSetOf v, 0 ≤ t + d ∧ t + d < w := by
  intro d hd
  have hbounds := dc_bounds v d hd
  rcases (by omega : (0 ≤ t + d ∧ t + d < w) ∨ t + d < 0 ∨ w ≤ t + d) with h | hneg | hpos
  · exact h
  · exfalso
    have hx := dc_star v (-t - 1) (mem_six_of_bounds (by omega) (by omega))
      ⟨d, hd, Or.inl ⟨by omega, by omega⟩⟩
    have := hsent _ hx
    omega
  · exfalso
    have hx := dc_star v (w - 1 - t) (mem_six_of_bounds (by omega) (by omega))
      ⟨d, hd, Or.inr ⟨by omega, by omega⟩⟩
    have := hsent _ hx
    omega

theorem emod_ne_fact {e w : Int} (hw : 2 ≤ w) (hlo : -2 ≤ e) (hhi : e ≤ w + 1)
    (h : e % w ≠ w - 1) : e ≠ -1 ∧ e ≠ w - 1 := by
  constructor
  · rintro rfl
    exact h (neg_one_emod hw)
  · rintro rfl
    exact h (self_emod hw (by omega) (by omega))

theorem piece_shape_mem (v : FixedPiece) : piece_shape v ∈ piece_shapes := by
  have h19 : v.idx < piece_shapes.length := piece_shapes_length ▸ v.idx_lt
  rw [piece_shape, List.getD_eq_getElem?_getD, List.getElem?_eq_getElem h19]
  exact List.getElem_mem h19

theorem newShiftsInRange_spec {row_count col_count : Nat}
    (h : Board.newShiftsInRange row_count col_count = true) :
    (col_count + 1) * row_count < 64 ∧
      ∀ shape ∈ piece_shapes, ∀ sq ∈ shape,
        0 ≤ ((col_count + 1 : Nat) : Int) * sq.1 + sq.2 ∧
          ((col_count + 1 : Nat) : Int) * sq.1 + sq.2 < 64 := by
  unfold Board.newShiftsInRange at h
  simp only [Bool.and_eq_true, List.all_eq_true, decide_eq_true_eq] at h
  obtain ⟨h1, h2⟩ := h
  exact ⟨h1, fun shape hs sq hsq => h2 shape hs sq hsq⟩

theorem variantBitmap_testBit {w : Nat} {shape : List (Int × Int)}
    (hin : ∀ sq ∈ shape, 0 ≤ (w : Int) * sq.1 + sq.2 ∧ (w : Int) * sq.1 + sq.2 < 64)
    (n : Nat) :
    (variantBitmap w shape).testBit n = true ↔
      (n = 0 ∨ ∃ sq ∈ shape, (w : Int) * sq.1 + sq.2 = (n : Int)) := by
  have key : ∀ (l : List (Int × Int)) (acc : Nat),
      (∀ sq ∈ l, 0 ≤ (w : Int) * sq.1 + sq.2 ∧ (w : Int) * sq.1 + sq.2 < 64) →
      ((l.foldl (fun acc sq => acc ||| u64ShlI 1 ((w : Int) * sq.1 + sq.2)) acc).testBit n
          = true ↔
        (acc.testBit n = true ∨ ∃ sq ∈ l, (w : Int) * sq.1 + sq.2 = (n : Int))) := by
    intro l
    induction l with
    | nil => intro acc _; simp
    | cons o rest ih =>
      intro acc hin2
      rw [List.foldl_cons, ih _ (fun sq hsq => hin2 sq (by simp [hsq]))]
      have hq := hin2 o (by simp)
      have hstep : ((acc ||| u64ShlI 1 ((w : Int) * o.1 + o.2)).testBit n = true) ↔
          (acc.testBit n = true ∨ (w : Int) * o.1 + o.2 = (n : Int)) := by
        unfold u64ShlI
        rw [Nat.testBit_lor, Nat.shiftLeft_eq, one_mul, Bool.or_eq_true,
          Nat.testBit_mod_two_pow, Nat.testBit_two_pow]
        constructor
        · rintro (h | h)
          · exact Or.inl h
          · simp only [Bool.and_eq_true, decide_eq_true_eq] at h
            exact Or.inr (by omega)
        · rintro (h | h)
          · exact Or.inl h
          · refine Or.inr ?_
            simp only [Bool.and_eq_true, decide_eq_true_eq]
            omega
      rw [hstep]
      simp only [List.mem_cons]
      constructor
      · rintro ((h | h) | ⟨sq, hsq, hp⟩)
        · exact Or.inl h
        · exact Or.inr ⟨o, Or.inl rfl, h⟩
        · exact Or.inr ⟨sq, Or.inr hsq, hp⟩
      · rintro (h | ⟨sq, hsq2, hp⟩)
        · exact Or.inl (Or.inl h)
        · rcases hsq2 with rfl | hsq2
          · exact Or.inl (Or.inr hp)
          · exact Or.inr ⟨sq, hsq2, hp⟩
  unfold variantBitmap
  rw [key shape 1 hin]
  have h1 : (1 : Nat).testBit n = true ↔ n = 0 := by
    cases n with
    | zero => simp
    | succ m =>
      simp only [Nat.testBit_succ]
      norm_num
  rw [h1]

theorem int_div_mod_of_decomp {p w : Nat} {A e : Int} (hw : 0 < w)
    (hA : 0 ≤ A) (he0 : 0 ≤ e) (hew : e < (w : Int)) (hp : (p : Int) = A * w + e) :
    ((p / w : Nat) : Int) = A ∧ ((p % w : Nat) : Int) = e := by
  have hpn : p = e.toNat + A.toNat * w := by
    have h1 : A = (A.toNat : Int) := (Int.toNat_of_nonneg hA).symm
    have h2 : e = (e.toNat : Int) := (Int.toNat_of_nonneg he0).symm
    rw [h1, h2] at hp
    exact_mod_cast (by linarith [hp] : (p : Int) = (e.toNat : Int) + (A.toNat : Int) * w)
  have hew2 : e.toNat < w := by omega
  constructor
  · rw [hpn, Nat.add_mul_div_right _ _ hw, Nat.div_eq_of_lt hew2]
    omega
  · rw [hpn, Nat.add_mul_mod_self_right, Nat.mod_eq_of_lt hew2]
    omega

theorem entry_bits_to_cells
    {row_count col_count : Nat} {v : FixedPiece} {s : Nat}
    (hrange : Board.newShiftsInRange row_count col_count = true)
    (hmaskfree : ∀ p : Nat,
      (variantBitmap (col_count + 1) (piece_shape v) <<< s).testBit p = true →
      p < (col_count + 1) * row_count ∧ p % (col_count + 1) ≠ col_count) :
    (∀ p : Nat,
      ((variantBitmap (col_count + 1) (piece_shape v) <<< s).testBit p = true) ↔
      ∃ o ∈ footprintOf v,
        (p : Int) = (((s / (col_count + 1) : Nat) : Int) + o.1) * ((col_count + 1 : Nat) : Int)
          + (((s % (col_count + 1) : Nat) : Int) + o.2)) ∧
    (∀ o ∈ footprintOf v,
      0 ≤ ((s % (col_count + 1) : Nat) : Int) + o.2 ∧
      ((s % (col_count + 1) : Nat) : Int) + o.2 < ((col_count + 1 : Nat) : Int) ∧
      0 ≤ o.1) := by
  obtain ⟨harea, hshapes⟩ := newShiftsInRange_spec hrange
  have hin := hshapes _ (piece_shape_mem v)
  have hw2 : 2 ≤ ((col_count + 1 : Nat) : Int) := by
    have hL4 := (hshapes (piece_shape .L4) (piece_shape_mem .L4) (1, -2) (by decide)).1
    simp only at hL4
    omega
  have hvb := variantBitmap_testBit hin
  have hshift : ∀ p : Nat,
      ((variantBitmap (col_count + 1) (piece_shape v) <<< s).testBit p = true) ↔
      (p = s ∨ ∃ sq ∈ piece_shape v,
        (p : Int) = (s : Int) + (((col_count + 1 : Nat) : Int) * sq.1 + sq.2)) := by
    intro p
    rw [Nat.testBit_shiftLeft]
    constructor
    · intro h
      simp only [Bool.and_eq_true, decide_eq_true_eq, ge_iff_le] at h
      obtain ⟨hsp, hbit2⟩ := h
      rcases (hvb (p - s)).mp hbit2 with h0 | ⟨sq, hsq, hq⟩
      · exact Or.inl (by omega)
      · exact Or.inr ⟨sq, hsq, by omega⟩
    · intro h
      simp only [Bool.and_eq_true, decide_eq_true_eq, ge_iff_le]
      rcases h with rfl | ⟨sq, hsq, hq⟩
      · exact ⟨Nat.le_refl _, by rw [Nat.sub_self]; exact (hvb 0).mpr (Or.inl rfl)⟩
      · have hq0 := (hin sq hsq).1
        have hsp : s ≤ p := by omega
        exact ⟨hsp, (hvb (p - s)).mpr (Or.inr ⟨sq, hsq, by omega⟩)⟩
  have hanchor : (variantBitmap (col_count + 1) (piece_shape v) <<< s).testBit s = true :=
    (hshift s).mpr (Or.inl rfl)
  obtain ⟨hsarea, hsmod⟩ := hmaskfree s hanchor
  have hdivmod := Nat.div_add_mod s (col_count + 1)
  have hs : (s : Int) = ((col_count + 1 : Nat) : Int) * ((s / (col_count + 1) : Nat) : Int)
      + ((s % (col_count + 1) : Nat) : Int) := by exact_mod_cast hdivmod.symm
  have htw : s % (col_count + 1) < col_count + 1 := Nat.mod_lt _ (by omega)
  have htw2 : ((s % (col_count + 1) : Nat) : Int) ≤ ((col_count + 1 : Nat) : Int) - 2 := by
    have : s % (col_count + 1) ≠ col_count := hsmod
    omega
  have hsent : ∀ d ∈ dcSetOf v, ((s % (col_count + 1) : Nat) : Int) + d ≠ -1 ∧
      ((s % (col_count + 1) : Nat) : Int) + d ≠ ((col_count + 1 : Nat) : Int) - 1 := by
    intro d hd
    simp only [dcSetOf, List.mem_cons, List.mem_map] at hd
    rcases hd with rfl | ⟨sq, hsq, rfl⟩
    · constructor <;> omega
    · have hq := hin sq hsq
      have hp1 : ((s + (((col_count + 1 : Nat) : Int) * sq.1 + sq.2).toNat : Nat) : Int)
          = (s : Int) + (((col_count + 1 : Nat) : Int) * sq.1 + sq.2) := by
        omega
      have hbitp : (variantBitmap (col_count + 1) (piece_shape v) <<< s).testBit
          (s + (((col_count + 1 : Nat) : Int) * sq.1 + sq.2).toNat) = true :=
        (hshift _).mpr (Or.inr ⟨sq, hsq, hp1⟩)
      obtain ⟨hparea, hpmod⟩ := hmaskfree _ hbitp
      have hdecomp : ((s + (((col_count + 1 : Nat) : Int) * sq.1 + sq.2).toNat : Nat) : Int)
          = (((s / (col_count + 1) : Nat) : Int) + sq.1) * ((col_count + 1 : Nat) : Int)
            + (((s % (col_count + 1) : Nat) : Int) + sq.2) := by
        rw [hp1, hs]
        ring
      have hemod : (((s % (col_count + 1) : Nat) : Int) + sq.2)
            % ((col_count + 1 : Nat) : Int)
          ≠ ((col_count + 1 : Nat) : Int) - 1 := by
        intro hcon
        apply hpmod
        have h1 : ((s + (((col_count + 1 : Nat) : Int) * sq.1 + sq.2).toNat : Nat) : Int)
              % ((col_count + 1 : Nat) : Int)
            = (((s % (col_count + 1) : Nat) : Int) + sq.2)
              % ((col_count + 1 : Nat) : Int) := by
          rw [hdecomp]
          rw [show (((s / (col_count + 1) : Nat) : Int) + sq.1) * ((col_count + 1 : Nat) : Int)
              + (((s % (col_count + 1) : Nat) : Int) + sq.2)
              = (((s % (col_count + 1) : Nat) : Int) + sq.2)
                + ((col_count + 1 : Nat) : Int)
                  * (((s / (col_count + 1) : Nat) : Int) + sq.1) from by ring]
          rw [Int.add_mul_emod_self_left]
        rw [hcon] at h1
        have h2 : ((s + (((col_count + 1 : Nat) : Int) * sq.1 + sq.2).toNat : Nat) : Int)
              % ((col_count + 1 : Nat) : Int)
            = (((s + (((col_count + 1 : Nat) : Int) * sq.1 + sq.2).toNat)
                % (col_count + 1) : Nat) : Int) := by
          push_cast
          rfl
        rw [h2] at h1
        omega
      have hb := shape_bounds v sq hsq
      exact emod_ne_fact hw2 (by omega) (by omega) hemod
  have hnw := no_wrap hw2 (by omega) (by omega) hsent
  constructor
  · intro p
    rw [hshift p]
    constructor
    · rintro (rfl | ⟨sq, hsq, hq⟩)
      · refine ⟨(0, 0), by simp [footprintOf], ?_⟩
        simp only
        rw [hs]
        ring
      · refine ⟨sq, by simp [footprintOf, hsq], ?_⟩
        rw [hq, hs]
        ring
    · rintro ⟨o, ho, hp⟩
      simp only [footprintOf, List.mem_cons] at ho
      rcases ho with rfl | hsq
      · refine Or.inl ?_
        dsimp only at hp
        have hps : (p : Int) = (s : Int) := by
          rw [hs]
          linarith [hp]
        omega
      · refine Or.inr ⟨o, hsq, ?_⟩
        rw [hp, hs]
        ring
  · intro o ho
    have hdmem : o.2 ∈ dcSetOf v := by
      simp only [footprintOf, List.mem_cons] at ho
      rcases ho with rfl | hsq
      · simp [dcSetOf]
      · simp only [dcSetOf, List.mem_cons, List.mem_map]
        exact Or.inr ⟨o, hsq, rfl⟩
    have h1 := hnw o.2 hdmem
    refine ⟨h1.1, h1.2, ?_⟩
    simp only [footprintOf, List.mem_cons] at ho
    rcases ho with rfl | hsq
    · simp
    · exact (shape_bounds v o hsq).1

/-! ## Claim C2, stage D: the rendered byte grid of a completed board -/

theorem u64TrailingZeros_eq {x n : Nat} (hlt : x < 2 ^ 64) (hbit : x.testBit n = true)
    (hmin : ∀ j < n, x.testBit j = false) : u64TrailingZeros x = n := by
  have hx0 : x ≠ 0 := by
    intro h
    subst h
    rw [Nat.zero_testBit] at hbit
    cases hbit
  obtain ⟨_, hb2, hm2⟩ := u64TrailingZeros_spec hx0 hlt
  rcases Nat.lt_trichotomy (u64TrailingZeros x) n with h | h | h
  · rw [hmin _ h] at hb2; cases hb2
  · exact h
  · rw [hm2 _ h] at hbit; cases hbit

theorem shl_shr (x s : Nat) : (x <<< s) >>> s = x := by
  rw [Nat.shiftLeft_eq, Nat.shiftRight_eq_div_pow,
    Nat.mul_div_cancel _ (Nat.two_pow_pos s)]

theorem variantBitmap_bit_zero (w : Nat) (shape : List (Int × Int)) :
    (variantBitmap w shape).testBit 0 = true := by
  have key : ∀ (l : List (Int × Int)) (acc : Nat), acc.testBit 0 = true →
      (l.foldl (fun acc sq => acc ||| u64ShlI 1 ((w : Int) * sq.1 + sq.2)) acc).testBit 0
        = true := by
    intro l
    induction l with
    | nil => intro acc h; exact h
    | cons o rest ih =>
      intro acc h
      rw [List.foldl_cons]
      apply ih
      rw [Nat.testBit_lor, h, Bool.true_or]
  exact key shape 1 (by decide)

theorem shifted_vb_testBit {w : Nat} {shape : List (Int × Int)} {s : Nat}
    (hin : ∀ sq ∈ shape, 0 ≤ (w : Int) * sq.1 + sq.2 ∧ (w : Int) * sq.1 + sq.2 < 64)
    (p : Nat) :
    ((variantBitmap w shape <<< s).testBit p = true) ↔
    (p = s ∨ ∃ sq ∈ shape, (p : Int) = (s : Int) + ((w : Int) * sq.1 + sq.2)) := by
  have hvb := variantBitmap_testBit hin
  rw [Nat.testBit_shiftLeft]
  constructor
  · intro h
    simp only [Bool.and_eq_true, decide_eq_true_eq, ge_iff_le] at h
    obtain ⟨hsp, hbit2⟩ := h
    rcases (hvb (p - s)).mp hbit2 with h0 | ⟨sq, hsq, hq⟩
    · exact Or.inl (by omega)
    · exact Or.inr ⟨sq, hsq, by omega⟩
  · intro h
    simp only [Bool.and_eq_true, decide_eq_true_eq, ge_iff_le]
    rcases h with rfl | ⟨sq, hsq, hq⟩
    · exact ⟨Nat.le_refl _, by rw [Nat.sub_self]; exact (hvb 0).mpr (Or.inl rfl)⟩
    · have hq0 := (hin sq hsq).1
      have hsp : s ≤ p := by omega
      exact ⟨hsp, (hvb (p - s)).mpr (Or.inr ⟨sq, hsq, by omega⟩)⟩

theorem newBits_testBit_false {row_count col_count m : Nat}
    (h1 : m < (col_count + 1) * row_count) (h2 : m % (col_count + 1) ≠ col_count) :
    (Board.new row_count col_count).bits.testBit m = false := by
  rw [newBits_eq]
  rw [Bool.eq_false_iff]
  intro hcon
  rw [foldl_or_testBit] at hcon
  rcases hcon with hpad | ⟨hmem, _⟩
  · rw [padding_testBit_low h1] at hpad
    cases hpad
  · rw [List.mem_range'] at hmem
    obtain ⟨k, _, rfl⟩ := hmem
    rw [Nat.add_mul_mod_self_left, Nat.mod_eq_of_lt (by omega)] at h2
    exact h2 rfl

theorem foldOr_testBit {m : Nat} :
    ∀ (l : List (Nat × Piece)) (acc : Nat),
      ((foldOrBitmaps l acc).testBit m = true) ↔
      (acc.testBit m = true ∨ ∃ e ∈ l, e.1.testBit m = true) := by
  intro l
  induction l with
  | nil => intro acc; simp [foldOrBitmaps]
  | cons e rest ih =>
    intro acc
    rw [foldOrBitmaps_cons, ih, Nat.testBit_lor]
    simp only [Bool.or_eq_true, List.mem_cons]
    constructor
    · rintro ((h | h) | ⟨e2, he2, h⟩)
      · exact Or.inl h
      · exact Or.inr ⟨e, Or.inl rfl, h⟩
      · exact Or.inr ⟨e2, Or.inr he2, h⟩
    · rintro (h | ⟨e2, he2, h⟩)
      · exact Or.inl (Or.inl h)
      · rcases he2 with rfl | he2
        · exact Or.inl (Or.inr h)
        · exact Or.inr ⟨e2, he2, h⟩

theorem mem_sentinel_range {col_count row_count m : Nat} :
    m ∈ List.range' col_count row_count (col_count + 1) ↔
      (m < (col_count + 1) * row_count ∧ m % (col_count + 1) = col_count) := by
  rw [List.mem_range']
  constructor
  · rintro ⟨k, hk, rfl⟩
    constructor
    · calc col_count + (col_count + 1) * k < (col_count + 1) * (k + 1) := by ring_nf; omega
        _ ≤ (col_count + 1) * row_count := Nat.mul_le_mul_left _ hk
    · rw [Nat.add_mul_mod_self_left, Nat.mod_eq_of_lt (by omega)]
  · rintro ⟨h1, h2⟩
    refine ⟨m / (col_count + 1), ?_, ?_⟩
    · rw [Nat.div_lt_iff_lt_mul (by omega), Nat.mul_comm]
      exact h1
    · have := Nat.div_add_mod m (col_count + 1)
      omega

theorem maskfree_of_disjoint {row_count col_count : Nat} {bm : Nat}
    (hlt : bm < 2 ^ 64)
    (_harea : (col_count + 1) * row_count ≤ 64)
    (hd : bm &&& (Board.new row_count col_count).bits = 0) :
    ∀ p, bm.testBit p = true →
      p < (col_count + 1) * row_count ∧ p % (col_count + 1) ≠ col_count := by
  intro p hp
  have hp64 : p < 64 := by
    by_contra hge
    rw [Nat.testBit_lt_two_pow
      (lt_of_lt_of_le hlt (Nat.pow_le_pow_right (by omega) (by omega)))] at hp
    cases hp
  have harea2 : p < (col_count + 1) * row_count := by
    by_contra hge
    have hmask := newBits_testBit row_count col_count p hp64 (Or.inr (by omega))
    have hz := congrArg (fun y => Nat.testBit y p) hd
    simp [Nat.testBit_land, hp, hmask] at hz
  refine ⟨harea2, ?_⟩
  intro hmod
  have hmask := newBits_testBit row_count col_count p hp64 (Or.inl ⟨hmod, harea2⟩)
  have hz := congrArg (fun y => Nat.testBit y p) hd
  simp [Nat.testBit_land, hp, hmask] at hz

theorem fixedPieceOfIdx_lt {j : Nat} (h : j < 19) :
    ∃ fp : FixedPiece, fixedPieceOfIdx j = some fp ∧ fp.idx = j := by
  interval_cases j <;> exact ⟨_, rfl, rfl⟩

theorem write_shape_fold {w marker shift : Nat} :
    ∀ (shape : List (Int × Int)) (sq : List Nat),
      (∀ o ∈ shape, 0 ≤ (shift : Int) + ((w : Int) * o.1 + o.2) ∧
          ((shift : Int) + ((w : Int) * o.1 + o.2)).toNat < sq.length) →
      (shape.foldl
          (fun sq off =>
            let index : Int := (shift : Int) + ((w : Int) * off.1 + off.2)
            if index < 0 then sq else sq.set index.toNat marker) sq).length
          = sq.length ∧
      ∀ m : Nat,
        (shape.foldl
            (fun sq off =>
              let index : Int := (shift : Int) + ((w : Int) * off.1 + off.2)
              if index < 0 then sq else sq.set index.toNat marker) sq).getD m 0
          = if ∃ o ∈ shape, (m : Int) = (shift : Int) + ((w : Int) * o.1 + o.2)
            then marker else sq.getD m 0 := by
  intro shape
  induction shape with
  | nil =>
    intro sq _
    refine ⟨rfl, fun m => ?_⟩
    rw [if_neg]
    · rfl
    · rintro ⟨o, ho, _⟩
      exact absurd ho (List.not_mem_nil o)
  | cons o rest ih =>
    intro sq hin
    have ho := hin o (by simp)
    rw [List.foldl_cons]
    dsimp only
    rw [if_neg (show ¬((shift : Int) + ((w : Int) * o.1 + o.2) < 0) by omega)]
    have hlen1 :
        (sq.set ((shift : Int) + ((w : Int) * o.1 + o.2)).toNat marker).length
          = sq.length := by simp
    obtain ⟨ihlen, ihget⟩ :=
      ih (sq.set ((shift : Int) + ((w : Int) * o.1 + o.2)).toNat marker)
        (fun o2 ho2 => ⟨(hin o2 (by simp [ho2])).1,
          by rw [hlen1]; exact (hin o2 (by simp [ho2])).2⟩)
    refine ⟨by rw [ihlen, hlen1], fun m => ?_⟩
    rw [ihget m]
    by_cases hrest : ∃ o2 ∈ rest, (m : Int) = (shift : Int) + ((w : Int) * o2.1 + o2.2)
    · rw [if_pos hrest, if_pos]
      obtain ⟨o2, ho2, hm⟩ := hrest
      exact ⟨o2, by simp [ho2], hm⟩
    · rw [if_neg hrest]
      by_cases hm : (m : Int) = (shift : Int) + ((w : Int) * o.1 + o.2)
      · rw [if_pos ⟨o, by simp, hm⟩]
        have hmn : m = ((shift : Int) + ((w : Int) * o.1 + o.2)).toNat := by omega
        rw [hmn]
        simp [List.getD, List.getElem?_set_self ho.2]
      · rw [if_neg]
        · have hmn : m ≠ ((shift : Int) + ((w : Int) * o.1 + o.2)).toNat := by omega
          simp [List.getD, List.getElem?_set_ne (Ne.symm hmn)]
        · rintro ⟨o2, ho2, hm2⟩
          rcases List.mem_cons.mp ho2 with rfl | ho2
          · exact hm hm2
          · exact hrest ⟨o2, ho2, hm2⟩

theorem posWriteShape_spec {w marker shift : Nat} {shape : List (Int × Int)}
    {sq : List Nat}
    (hin : ∀ o ∈ shape, 0 ≤ (shift : Int) + ((w : Int) * o.1 + o.2) ∧
        ((shift : Int) + ((w : Int) * o.1 + o.2)).toNat < sq.length)
    (hshift : shift < sq.length) :
    (posWriteShape w marker shift shape sq).length = sq.length ∧
    ∀ m : Nat,
      (posWriteShape w marker shift shape sq).getD m 0
        = if m = shift ∨ ∃ o ∈ shape, (m : Int) = (shift : Int) + ((w : Int) * o.1 + o.2)
          then marker else sq.getD m 0 := by
  unfold posWriteShape
  have hlen0 : (sq.set shift marker).length = sq.length := by simp
  obtain ⟨hlen, hget⟩ := write_shape_fold shape (sq.set shift marker)
    (fun o ho => ⟨(hin o ho).1, by rw [hlen0]; exact (hin o ho).2⟩)
  refine ⟨by rw [hlen, hlen0], fun m => ?_⟩
  rw [hget m]
  by_cases hrest : ∃ o ∈ shape, (m : Int) = (shift : Int) + ((w : Int) * o.1 + o.2)
  · rw [if_pos hrest, if_pos (Or.inr hrest)]
  · rw [if_neg hrest]
    by_cases hm : m = shift
    · subst hm
      rw [if_pos (Or.inl rfl)]
      simp [List.getD, List.getElem?_set_self hshift]
    · rw [if_neg (fun hcon => hcon.elim hm hrest)]
      simp [List.getD, List.getElem?_set_ne (Ne.symm hm)]

theorem stamp_fold_spec {marker : Nat} :
    ∀ (l : List Nat) (sq : List Nat), (∀ n ∈ l, n < sq.length) →
      (l.foldl (fun sq n => sq.set n marker) sq).length = sq.length ∧
      ∀ m, (l.foldl (fun sq n => sq.set n marker) sq).getD m 0
          = if m ∈ l then marker else sq.getD m 0 := by
  intro l
  induction l with
  | nil =>
    intro sq _
    exact ⟨rfl, fun m => by simp⟩
  | cons n rest ih =>
    intro sq hin
    rw [List.foldl_cons]
    have hlen1 : (sq.set n marker).length = sq.length := by simp
    obtain ⟨ihlen, ihget⟩ := ih (sq.set n marker)
      (fun k hk => by rw [hlen1]; exact hin k (by simp [hk]))
    refine ⟨by rw [ihlen, hlen1], fun m => ?_⟩
    rw [ihget m]
    by_cases hrest : m ∈ rest
    · rw [if_pos hrest, if_pos (by simp [hrest])]
    · rw [if_neg hrest]
      by_cases hm : m = n
      · subst hm
        rw [if_pos (by simp)]
        simp [List.getD, List.getElem?_set_self (hin m (by simp))]
      · rw [if_neg (by simp [hm, hrest])]
        simp [List.getD, List.getElem?_set_ne (Ne.symm hm)]

theorem renderable_entry_step {row_count col_count : Nat} {bm : Nat} {k : Piece}
    (hrange : Board.newShiftsInRange row_count col_count = true)
    (hE : EntryRenderable row_count col_count (bm, k)) :
    ∃ j : Nat, ∃ fp : FixedPiece, ∃ s : Nat,
      u64TrailingZeros bm = s ∧
      (Board.new row_count col_count).bitmaps.findIdx? (fun x => x == bm >>> s)
        = some j ∧
      fixedPieceOfIdx j = some fp ∧
      bm = variantBitmap (col_count + 1) (piece_shape fp) <<< s ∧
      (∀ p : Nat, bm.testBit p = true →
        p < (col_count + 1) * row_count ∧ p % (col_count + 1) ≠ col_count) ∧
      (∀ p : Nat, (bm.testBit p = true) ↔
        (p = s ∨ ∃ o ∈ piece_shape fp,
          (p : Int) = (s : Int) + (((col_count + 1 : Nat) : Int) * o.1 + o.2))) := by
  obtain ⟨v, s, hex, hmf⟩ := hE
  dsimp only at hex hmf
  obtain ⟨harea, hshapes⟩ := newShiftsInRange_spec hrange
  have hin_v := hshapes _ (piece_shape_mem v)
  have hiff_v : ∀ p : Nat, (bm.testBit p = true) ↔
      (p = s ∨ ∃ sq ∈ piece_shape v,
        (p : Int) = (s : Int) + (((col_count + 1 : Nat) : Int) * sq.1 + sq.2)) := by
    intro p
    rw [hex]
    exact shifted_vb_testBit hin_v p
  have hbit_s : bm.testBit s = true := (hiff_v s).mpr (Or.inl rfl)
  have hmin : ∀ i, i < s → bm.testBit i = false := by
    intro i hi
    rw [Bool.eq_false_iff]
    intro hc
    rcases (hiff_v i).mp hc with rfl | ⟨sq, hsq, hq⟩
    · omega
    · have hq0 := (hin_v sq hsq).1
      omega
  have hlt : bm < 2 ^ 64 := by
    apply lt_two_pow_of_high_bits
    intro i hi
    rw [Bool.eq_false_iff]
    intro hc
    have := (hmf i hc).1
    omega
  have htz : u64TrailingZeros bm = s := u64TrailingZeros_eq hlt hbit_s hmin
  have hshr : bm >>> s = variantBitmap (col_count + 1) (piece_shape v) := by
    rw [hex, shl_shr]
  have hmapbm : (Board.new row_count col_count).bitmaps
      = piece_shapes.map (variantBitmap (col_count + 1)) := rfl
  have hmem : variantBitmap (col_count + 1) (piece_shape v)
      ∈ (Board.new row_count col_count).bitmaps := by
    rw [hmapbm]
    exact List.mem_map.mpr ⟨piece_shape v, piece_shape_mem v, rfl⟩
  obtain ⟨j, hj⟩ : ∃ j, (Board.new row_count col_count).bitmaps.findIdx?
      (fun x => x == bm >>> s) = some j := by
    cases hf : (Board.new row_count col_count).bitmaps.findIdx?
        (fun x => x == bm >>> s) with
    | none =>
      exfalso
      rw [List.findIdx?_eq_none_iff] at hf
      have hfm := hf _ hmem
      rw [hshr] at hfm
      simp at hfm
    | some j => exact ⟨j, rfl⟩
  have hj2 := hj
  rw [List.findIdx?_eq_some_iff_getElem] at hj2
  obtain ⟨hjlt, hpj, _⟩ := hj2
  have hlen19 : (Board.new row_count col_count).bitmaps.length = 19 := by
    rw [hmapbm, List.length_map, piece_shapes_length]
  have hj19 : j < 19 := by rw [hlen19] at hjlt; exact hjlt
  obtain ⟨fp, hfp, hfpidx⟩ := fixedPieceOfIdx_lt hj19
  have htabj : (Board.new row_count col_count).bitmaps.getD j 0
      = variantBitmap (col_count + 1) (piece_shape fp) := by
    rw [← hfpidx]
    exact new_bitmaps_getD row_count col_count fp
  have hgetj : (Board.new row_count col_count).bitmaps.getD j 0 = bm >>> s := by
    rw [List.getD_eq_getElem?_getD, List.getElem?_eq_getElem hjlt]
    simpa using hpj
  have hfpv : variantBitmap (col_count + 1) (piece_shape fp)
      = variantBitmap (col_count + 1) (piece_shape v) := by
    rw [← htabj, hgetj, hshr]
  have hex_fp : bm = variantBitmap (col_count + 1) (piece_shape fp) <<< s := by
    rw [hfpv]
    exact hex
  have hin_fp := hshapes _ (piece_shape_mem fp)
  refine ⟨j, fp, s, htz, hj, hfp, hex_fp, hmf, ?_⟩
  intro p
  rw [hex_fp]
  exact shifted_vb_testBit hin_fp p

theorem posEntriesGo_spec {row_count col_count : Nat} {b : Board}
    (hw : b.width = col_count + 1)
    (hbm : b.bitmaps = (Board.new row_count col_count).bitmaps)
    (hrange : Board.newShiftsInRange row_count col_count = true) :
    ∀ (entries : List (Nat × Piece)) (index : Nat) (sq : List Nat),
      sq.length = (col_count + 1) * row_count →
      (∀ e ∈ entries, EntryRenderable row_count col_count e) →
      entries.Pairwise (fun e1 e2 => e1.1 &&& e2.1 = 0) →
      ∃ out, posEntriesGo b index entries sq = some out ∧
        out.length = sq.length ∧
        (∀ m : Nat, (∀ e ∈ entries, e.1.testBit m = false) →
          out.getD m 0 = sq.getD m 0) ∧
        (∀ i : Nat, ∀ hi : i < entries.length, ∀ m : Nat,
          (entries.get ⟨i, hi⟩).1.testBit m = true → out.getD m 0 = 65 + index + i) := by
  intro entries
  induction entries with
  | nil =>
    intro index sq _ _ _
    exact ⟨sq, rfl, rfl, fun m _ => rfl, fun i hi => absurd hi (by simp)⟩
  | cons e rest ih =>
    obtain ⟨bm, k⟩ := e
    intro index sq hlen hent hpw
    obtain ⟨j, fp, s, htz, hj, hfp, hex, hmf, hiff⟩ :=
      renderable_entry_step hrange (hent (bm, k) (by simp))
    obtain ⟨harea, hshapes⟩ := newShiftsInRange_spec hrange
    have hin_fp := hshapes _ (piece_shape_mem fp)
    have hsbit : bm.testBit s = true := (hiff s).mpr (Or.inl rfl)
    have hs_lt : s < sq.length := by
      rw [hlen]
      exact (hmf s hsbit).1
    have hwrites : ∀ o ∈ piece_shape fp,
        0 ≤ (s : Int) + (((col_count + 1 : Nat) : Int) * o.1 + o.2) ∧
        ((s : Int) + (((col_count + 1 : Nat) : Int) * o.1 + o.2)).toNat < sq.length := by
      intro o ho
      have hq := hin_fp o ho
      have h0 : 0 ≤ (s : Int) + (((col_count + 1 : Nat) : Int) * o.1 + o.2) := by
        have hs0 : (0 : Int) ≤ (s : Int) := Int.natCast_nonneg s
        linarith [hq.1]
      refine ⟨h0, ?_⟩
      have hbit : bm.testBit
          ((s : Int) + (((col_count + 1 : Nat) : Int) * o.1 + o.2)).toNat = true := by
        apply (hiff _).mpr
        refine Or.inr ⟨o, ho, ?_⟩
        rw [Int.toNat_of_nonneg h0]
      rw [hlen]
      exact (hmf _ hbit).1
    obtain ⟨hwl, hwg⟩ := @posWriteShape_spec (col_count + 1) (index + 65) s
      (piece_shape fp) sq hwrites hs_lt
    have hsq1 : ∀ m : Nat,
        (posWriteShape (col_count + 1) (index + 65) s (piece_shape fp) sq).getD m 0
          = if bm.testBit m = true then index + 65 else sq.getD m 0 := by
      intro m
      rw [hwg m]
      by_cases hb : bm.testBit m = true
      · rw [if_pos ((hiff m).mp hb), if_pos hb]
      · rw [if_neg, if_neg hb]
        intro hc
        exact hb ((hiff m).mpr hc)
    obtain ⟨out, hrun, holen, hagree, hlabel⟩ := ih (index + 1)
      (posWriteShape (col_count + 1) (index + 65) s (piece_shape fp) sq)
      (by rw [hwl]; exact hlen)
      (fun e2 he2 => hent e2 (by simp [he2]))
      (List.Pairwise.of_cons hpw)
    have hstep : posEntriesGo b index ((bm, k) :: rest) sq
        = posEntriesGo b (index + 1) rest
            (posWriteShape (col_count + 1) (index + 65) s (piece_shape fp) sq) := by
      rw [posEntriesGo]
      dsimp only
      rw [htz, hbm, hj]
      dsimp only
      rw [hfp]
      dsimp only
      rw [hw]
    refine ⟨out, by rw [hstep]; exact hrun, by rw [holen, hwl], ?_, ?_⟩
    · intro m hall
      have hbmf : bm.testBit m = false := hall (bm, k) (by simp)
      rw [hagree m (fun e2 he2 => hall e2 (by simp [he2])), hsq1 m,
        if_neg (by simp [hbmf])]
    · intro i hi m hbit
      cases i with
      | zero =>
        have hbm_bit : bm.testBit m = true := hbit
        have hrest_f : ∀ e2 ∈ rest, e2.1.testBit m = false := by
          intro e2 he2
          have hd : bm &&& e2.1 = 0 := (List.pairwise_cons.mp hpw).1 e2 he2
          rw [Bool.eq_false_iff]
          intro hc
          have hz := congrArg (fun y => Nat.testBit y m) hd
          simp [Nat.testBit_land, hbm_bit, hc] at hz
        rw [hagree m hrest_f, hsq1 m, if_pos hbm_bit]
        omega
      | succ i =>
        have hi2 : i < rest.length := by simpa using hi
        have hbit2 : (rest.get ⟨i, hi2⟩).1.testBit m = true := hbit
        rw [hlabel i hi2 m hbit2]
        omega

theorem length_filter_range_eq_card (n : Nat) (p : Nat → Bool) :
    ((List.range n).filter p).length
      = ((Finset.range n).filter (fun i => p i = true)).card := by
  simp [Finset.range, Finset.filter, Multiset.range, Finset.card]

theorem filter_range_extend {a b : Nat} (hab : a ≤ b) (p : Nat → Bool)
    (hout : ∀ i, a ≤ i → p i = false) :
    (Finset.range b).filter (fun i => p i = true)
      = (Finset.range a).filter (fun i => p i = true) := by
  ext i
  simp only [Finset.mem_filter, Finset.mem_range]
  constructor
  · rintro ⟨hib, hp⟩
    refine ⟨?_, hp⟩
    by_contra hge
    rw [hout i (by omega)] at hp
    cases hp
  · rintro ⟨hia, hp⟩
    exact ⟨by omega, hp⟩

theorem getD_le_sum : ∀ (l : List Nat) (i : Nat), l.getD i 0 ≤ l.sum := by
  intro l
  induction l with
  | nil => intro i; simp [List.getD]
  | cons a rest ih =>
    intro i
    cases i with
    | zero =>
      rw [List.getD_cons_zero, List.sum_cons]
      exact Nat.le_add_right _ _
    | succ i =>
      rw [List.getD_cons_succ, List.sum_cons]
      exact le_trans (ih i) (Nat.le_add_left _ _)

theorem PieceCollection.count_eq_zero {pcs : PieceCollection}
    (h : pcs.count_all = 0) (k : Piece) : pcs.count k = 0 := by
  have hle := getD_le_sum pcs.counts k.idx
  unfold PieceCollection.count_all at h
  unfold PieceCollection.count
  omega

theorem skolem_entries {α β : Type} {P : α → β → Prop} :
    ∀ l : List α, (∀ e ∈ l, ∃ v : β, P e v) →
      ∃ vs : List β, vs.length = l.length ∧
        ∀ i : Nat, ∀ hi : i < l.length, ∀ hv : i < vs.length,
          P (l.get ⟨i, hi⟩) (vs.get ⟨i, hv⟩) := by
  intro l
  induction l with
  | nil =>
    intro _
    exact ⟨[], rfl, fun i hi => absurd hi (by simp)⟩
  | cons a rest ih =>
    intro h
    obtain ⟨v, hv⟩ := h a (by simp)
    obtain ⟨vs, hlen, hvs⟩ := ih (fun x hx => h x (by simp [hx]))
    refine ⟨v :: vs, by simp [hlen], ?_⟩
    intro i hi hvi
    cases i with
    | zero => exact hv
    | succ i =>
      exact hvs i (by simpa using hi) (by simpa using hvi)

theorem filter_length_congr {α β : Type} {p : α → Bool} {q : β → Bool} :
    ∀ (l1 : List α) (l2 : List β), l1.length = l2.length →
      (∀ i : Nat, ∀ h1 : i < l1.length, ∀ h2 : i < l2.length,
        p (l1.get ⟨i, h1⟩) = q (l2.get ⟨i, h2⟩)) →
      (l1.filter p).length = (l2.filter q).length := by
  intro l1
  induction l1 with
  | nil =>
    intro l2 hlen _
    have h2 : l2 = [] := List.eq_nil_of_length_eq_zero hlen.symm
    subst h2
    rfl
  | cons a r1 ih =>
    intro l2 hlen hpt
    cases l2 with
    | nil => simp at hlen
    | cons b r2 =>
      have h0 : p a = q b := hpt 0 (by simp) (by simp)
      have hlen2 : r1.length = r2.length := by
        simp only [List.length_cons] at hlen
        omega
      have htail := ih r2 hlen2 (fun i h1 h2 =>
        hpt (i + 1) (by simpa using Nat.succ_lt_succ h1)
          (by simpa using Nat.succ_lt_succ h2))
      rw [List.filter_cons, List.filter_cons, h0]
      by_cases hqb : q b = true
      · rw [if_pos hqb, if_pos hqb]
        simp only [List.length_cons, htail]
      · rw [if_neg hqb, if_neg hqb]
        exact htail

theorem root_inv {row_count col_count : Nat} {pieces : PieceCollection}
    (h7 : pieces.counts.length = 7) :
    SolverInv row_count col_count pieces (Board.new row_count col_count) pieces := by
  have hstack : (Board.new row_count col_count).stack = [] := rfl
  refine ⟨rfl, rfl, rfl, by rw [hstack]; rfl, by rw [hstack]; exact List.Pairwise.nil,
    ?_, ?_, ?_, ?_, h7⟩
  · intro e he
    rw [hstack] at he
    exact absurd he (List.not_mem_nil e)
  · intro e he
    rw [hstack] at he
    exact absurd he (List.not_mem_nil e)
  · intro k
    rw [hstack]
    simp
  · rw [hstack]
    simp

theorem sum_eq_four_mul : ∀ {l : List Nat}, (∀ x ∈ l, x = 4) → l.sum = 4 * l.length := by
  intro l
  induction l with
  | nil => intro _; rfl
  | cons a rest ih =>
    intro h
    rw [List.sum_cons, List.length_cons, h a (by simp),
      ih (fun x hx => h x (by simp [hx]))]
    ring

theorem mem_labelCellsOf {squares : List Nat} {width m : Nat} {cell : Int × Int} :
    cell ∈ labelCellsOf squares width m ↔
      ∃ n : Nat, n < squares.length ∧ squares.getD n 0 = m ∧
        cell = (((n / width : Nat) : Int), ((n % width : Nat) : Int)) := by
  unfold labelCellsOf
  rw [List.mem_map]
  constructor
  · rintro ⟨n, hn, hcell⟩
    rw [List.mem_filter, List.mem_range] at hn
    exact ⟨n, hn.1, by simpa using hn.2, hcell.symm⟩
  · rintro ⟨n, hn1, hn2, hcell⟩
    exact ⟨n, by rw [List.mem_filter, List.mem_range]; exact ⟨hn1, by simpa using hn2⟩,
      hcell.symm⟩

theorem solved_position_spec {row_count col_count : Nat} {input : PieceCollection}
    {b : Board} {pcs : PieceCollection} {p : Position}
    (inv : SolverInv row_count col_count input b pcs)
    (hcomp : b.is_complete = true)
    (hpos : b.position? = some p)
    (hrange : Board.newShiftsInRange row_count col_count = true)
    (hval : 4 * input.count_all = row_count * col_count) :
    p.squares.length = (col_count + 1) * row_count ∧
    (∀ n, n < p.squares.length →
      (if n % (col_count + 1) = col_count then p.squares.getD n 0 = 10
       else 65 ≤ p.squares.getD n 0 ∧ p.squares.getD n 0 < 65 + input.count_all)) ∧
    (∀ n, n < p.squares.length → p.squares.getD n 0 ≠ 46) ∧
    ((Finset.range p.squares.length).filter
        (fun n => 65 ≤ p.squares.getD n 0)).card = 4 * input.count_all ∧
    (∃ vs : List FixedPiece, vs.length = input.count_all ∧
      (∀ k : Piece, (vs.filter (fun v => pieceMapAt v == k)).length = input.count k) ∧
      (∀ i : Nat, ∀ hi : i < vs.length, ∃ dr dc : Int,
        (labelCellsOf p.squares (col_count + 1) (65 + i)).length = 4 ∧
        (∀ cell : Int × Int,
          cell ∈ labelCellsOf p.squares (col_count + 1) (65 + i) ↔
          ∃ o ∈ footprintOf (vs.get ⟨i, hi⟩), cell = (o.1 + dr, o.2 + dc)))) := by
  obtain ⟨harea64, hshapes⟩ := newShiftsInRange_spec hrange
  have harea : (col_count + 1) * row_count ≤ 64 := le_of_lt harea64
  obtain ⟨hpcs0, hstacklen, hpc4⟩ := complete_stack_analysis inv hcomp harea hval
  have hentry : ∀ e ∈ b.stack, EntryRenderable row_count col_count e ∧
      ∃ v : FixedPiece, ∃ s : Nat,
        e.1 = variantBitmap (col_count + 1) (piece_shape v) <<< s ∧
        e.2 = pieceMapAt v := by
    intro e he
    obtain ⟨v, s, hs64, hemod, hkind⟩ := inv.hprov e he
    have hvlt : variantBitmap (col_count + 1) (piece_shape v) < 2 ^ 64 :=
      variantBitmap_lt _ _
    have hvpc : popCount64 (variantBitmap (col_count + 1) (piece_shape v)) ≤ 4 :=
      popCount64_variantBitmap_le _ v
    have h4 : popCount64
        ((variantBitmap (col_count + 1) (piece_shape v) <<< s) % 2 ^ 64) = 4 := by
      rw [← hemod]
      exact hpc4 e he
    obtain ⟨hexact, _, _⟩ := entry_exact hvlt hvpc h4
    have hex : e.1 = variantBitmap (col_count + 1) (piece_shape v) <<< s := by
      rw [hemod, hexact]
    have hlt : e.1 < 2 ^ 64 := by
      rw [hemod]
      exact Nat.mod_lt _ (Nat.pos_pow_of_pos 64 (by omega))
    have hmf := maskfree_of_disjoint hlt harea (inv.hmaskdisj e he)
    exact ⟨⟨v, s, hex, hmf⟩, v, s, hex, hkind⟩
  have hw1 : b.width = col_count + 1 := inv.hw
  have hh1 : b.height = row_count := inv.hh
  have hrepl_len : (List.replicate (b.width * b.height) 46).length
      = (col_count + 1) * row_count := by
    rw [List.length_replicate, hw1, hh1]
  obtain ⟨out, hrun, holen, hagree, hlabel⟩ :=
    posEntriesGo_spec hw1 inv.hbm hrange b.stack 0
      (List.replicate (b.width * b.height) 46) hrepl_len
      (fun e he => (hentry e he).1) inv.hdisj
  have hposition : b.position?
      = some ⟨(List.range' col_count row_count (col_count + 1)).foldl
          (fun sq n => sq.set n 10) out⟩ := by
    unfold Board.position?
    rw [hrun]
    simp only [hw1, hh1, Nat.add_sub_cancel]
  have hsent_mem : ∀ n ∈ List.range' col_count row_count (col_count + 1),
      n < out.length := by
    intro n hn
    rw [holen, hrepl_len]
    exact (mem_sentinel_range.mp hn).1
  obtain ⟨hstlen, hstget⟩ :=
    stamp_fold_spec (List.range' col_count row_count (col_count + 1)) out hsent_mem
  have hsq : p.squares = (List.range' col_count row_count (col_count + 1)).foldl
      (fun sq n => sq.set n 10) out := by
    rw [hposition] at hpos
    have h1 := Option.some.inj hpos
    rw [← h1]
  have hplen : p.squares.length = (col_count + 1) * row_count := by
    rw [hsq, hstlen, holen, hrepl_len]
  have hbyte : ∀ m : Nat, p.squares.getD m 0
      = if m ∈ List.range' col_count row_count (col_count + 1) then 10
        else out.getD m 0 := by
    intro m
    rw [hsq]
    exact hstget m
  have hbits_max : b.bits = U64_MAX := by
    rw [Board.is_complete] at hcomp
    simpa using hcomp
  have hcover : ∀ m, m < (col_count + 1) * row_count →
      m % (col_count + 1) ≠ col_count →
      ∃ i : Nat, ∃ hi : i < b.stack.length,
        (b.stack.get ⟨i, hi⟩).1.testBit m = true := by
    intro m hm hmod
    have hmax : U64_MAX.testBit m = true := by
      simp only [U64_MAX]
      rw [Nat.testBit_two_pow_sub_one]
      simp only [decide_eq_true_eq]
      omega
    have hfold : (foldOrBitmaps b.stack
        (Board.new row_count col_count).bits).testBit m = true := by
      rw [← inv.hbits, hbits_max]
      exact hmax
    rcases (foldOr_testBit b.stack _).mp hfold with hmask | ⟨e, he, hbit⟩
    · rw [newBits_testBit_false hm hmod] at hmask
      cases hmask
    · obtain ⟨⟨i, hi⟩, hei⟩ := List.mem_iff_get.mp he
      exact ⟨i, hi, by rw [hei]; exact hbit⟩
  have hbyte_cov : ∀ i : Nat, ∀ hi : i < b.stack.length, ∀ m : Nat,
      (b.stack.get ⟨i, hi⟩).1.testBit m = true → p.squares.getD m 0 = 65 + i := by
    intro i hi m hbit
    have hE := (hentry _ (List.mem_iff_get.mpr ⟨⟨i, hi⟩, rfl⟩)).1
    obtain ⟨v, s, hex, hmf⟩ := hE
    have hmod := hmf m hbit
    rw [hbyte m, if_neg (fun hc => hmod.2 (mem_sentinel_range.mp hc).2),
      hlabel i hi m hbit]
  have hbyte_inv : ∀ i : Nat, i < b.stack.length → ∀ m : Nat,
      m < (col_count + 1) * row_count → p.squares.getD m 0 = 65 + i →
      ∃ hi : i < b.stack.length, (b.stack.get ⟨i, hi⟩).1.testBit m = true := by
    intro i hiN m hm hb
    by_cases hmod : m % (col_count + 1) = col_count
    · exfalso
      rw [hbyte m, if_pos (mem_sentinel_range.mpr ⟨hm, hmod⟩)] at hb
      omega
    · obtain ⟨j, hj, hbit⟩ := hcover m hm hmod
      have hbj := hbyte_cov j hj m hbit
      have hij : i = j := by omega
      subst hij
      exact ⟨hj, hbit⟩
  have hNbits : ∀ n, ((foldOrBitmaps b.stack 0).testBit n = true) ↔
      ∃ e ∈ b.stack, e.1.testBit n = true := by
    intro n
    rw [foldOr_testBit]
    simp [Nat.zero_testBit]
  have hstack_none : ∀ n, (col_count + 1) * row_count ≤ n →
      (foldOrBitmaps b.stack 0).testBit n = false := by
    intro n hnA
    rw [Bool.eq_false_iff]
    intro hc
    obtain ⟨e, he, hbit⟩ := (hNbits n).mp hc
    obtain ⟨⟨v, s, hex, hmf⟩, _⟩ := hentry e he
    have := (hmf n hbit).1
    omega
  have hge_iff : ∀ n, n < (col_count + 1) * row_count →
      ((65 ≤ p.squares.getD n 0) ↔ (foldOrBitmaps b.stack 0).testBit n = true) := by
    intro n hn
    rw [hNbits n]
    constructor
    · intro hge
      by_cases hmod : n % (col_count + 1) = col_count
      · exfalso
        rw [hbyte n, if_pos (mem_sentinel_range.mpr ⟨hn, hmod⟩)] at hge
        omega
      · obtain ⟨i, hi, hbit⟩ := hcover n hn hmod
        exact ⟨b.stack.get ⟨i, hi⟩, List.mem_iff_get.mpr ⟨⟨i, hi⟩, rfl⟩, hbit⟩
    · rintro ⟨e, he, hbit⟩
      obtain ⟨⟨i, hilt⟩, heq⟩ := List.mem_iff_get.mp he
      have hbit2 : (b.stack.get ⟨i, hilt⟩).1.testBit n = true := by
        rw [heq]
        exact hbit
      rw [hbyte_cov i hilt n hbit2]
      omega
  refine ⟨hplen, ?_, ?_, ?_, ?_⟩
  · intro n hn
    rw [hplen] at hn
    by_cases hmod : n % (col_count + 1) = col_count
    · rw [if_pos hmod, hbyte n, if_pos (mem_sentinel_range.mpr ⟨hn, hmod⟩)]
    · rw [if_neg hmod]
      obtain ⟨i, hi, hbit⟩ := hcover n hn hmod
      rw [hbyte_cov i hi n hbit]
      have hiN : i < input.count_all := by
        rw [← hstacklen]
        exact hi
      omega
  · intro n hn
    rw [hplen] at hn
    by_cases hmod : n % (col_count + 1) = col_count
    · rw [hbyte n, if_pos (mem_sentinel_range.mpr ⟨hn, hmod⟩)]
      omega
    · obtain ⟨i, hi, hbit⟩ := hcover n hn hmod
      rw [hbyte_cov i hi n hbit]
      omega
  · rw [hplen]
    have hfe : (Finset.range ((col_count + 1) * row_count)).filter
          (fun n => 65 ≤ p.squares.getD n 0)
        = (Finset.range ((col_count + 1) * row_count)).filter
          (fun n => (foldOrBitmaps b.stack 0).testBit n = true) := by
      ext n
      simp only [Finset.mem_filter, Finset.mem_range]
      constructor
      · rintro ⟨hn, hp65⟩
        exact ⟨hn, (hge_iff n hn).mp hp65⟩
      · rintro ⟨hn, hb2⟩
        exact ⟨hn, (hge_iff n hn).mpr hb2⟩
    rw [hfe, ← filter_range_extend harea _ hstack_none]
    show popCount64 (foldOrBitmaps b.stack 0) = 4 * input.count_all
    rw [popCount64_foldOr b.stack 0 inv.hdisj (fun e _ => Nat.and_zero e.1),
      popCount64_zero]
    have hall4 : ∀ x ∈ b.stack.map (fun e => popCount64 e.1), x = 4 := by
      intro x hx
      obtain ⟨e, he, hxe⟩ := List.mem_map.mp hx
      rw [← hxe]
      exact hpc4 e he
    rw [sum_eq_four_mul hall4, List.length_map, hstacklen]
    omega
  · obtain ⟨vs, hvslen, hvsP⟩ := @skolem_entries (Nat × Piece) FixedPiece
      (fun e v => e.2 = pieceMapAt v ∧ ∃ s : Nat,
        e.1 = variantBitmap (col_count + 1) (piece_shape v) <<< s)
      b.stack
      (fun e he => by
        obtain ⟨_, v, s, hex, hkind⟩ := hentry e he
        exact ⟨v, hkind, s, hex⟩)
    refine ⟨vs, by rw [hvslen, hstacklen], ?_, ?_⟩
    · intro k
      have hflc := @filter_length_congr FixedPiece (Nat × Piece)
        (fun v => pieceMapAt v == k) (fun e => e.2 == k) vs b.stack
        (by rw [hvslen])
        (fun i h1 h2 => by
          dsimp only
          rw [(hvsP i h2 h1).1])
      rw [hflc]
      have hcnt := inv.hcounts k
      have hz := PieceCollection.count_eq_zero hpcs0 k
      omega
    · intro i hi
      have hiN : i < b.stack.length := by
        rw [← hvslen]
        exact hi
      obtain ⟨hkind, s, hex⟩ := hvsP i hiN hi
      have hE := (hentry _ (List.mem_iff_get.mpr ⟨⟨i, hiN⟩, rfl⟩)).1
      obtain ⟨v2, s2, hex2, hmf2⟩ := hE
      have hmaskfree : ∀ q : Nat,
          (variantBitmap (col_count + 1) (piece_shape (vs.get ⟨i, hi⟩)) <<< s).testBit q
              = true →
          q < (col_count + 1) * row_count ∧ q % (col_count + 1) ≠ col_count := by
        intro q hq
        exact hmf2 q (by rw [hex]; exact hq)
      obtain ⟨hcells, hgeom⟩ := entry_bits_to_cells hrange hmaskfree
      refine ⟨((s / (col_count + 1) : Nat) : Int), ((s % (col_count + 1) : Nat) : Int),
        ?_, ?_⟩
      · unfold labelCellsOf
        rw [List.length_map, hplen, length_filter_range_eq_card]
        have hiff2 : ∀ n, n < (col_count + 1) * row_count →
            (((p.squares.getD n 0 == 65 + i) = true) ↔
              (b.stack.get ⟨i, hiN⟩).1.testBit n = true) := by
          intro n hn
          constructor
          · intro hbeq
            rw [beq_iff_eq] at hbeq
            obtain ⟨hi2, hbit⟩ := hbyte_inv i hiN n hn hbeq
            exact hbit
          · intro hbit
            rw [beq_iff_eq]
            exact hbyte_cov i hiN n hbit
        have hfe2 : (Finset.range ((col_count + 1) * row_count)).filter
              (fun n => (p.squares.getD n 0 == 65 + i) = true)
            = (Finset.range ((col_count + 1) * row_count)).filter
              (fun n => (b.stack.get ⟨i, hiN⟩).1.testBit n = true) := by
          ext n
          simp only [Finset.mem_filter, Finset.mem_range]
          constructor
          · rintro ⟨hn, hb2⟩
            exact ⟨hn, (hiff2 n hn).mp hb2⟩
          · rintro ⟨hn, hb2⟩
            exact ⟨hn, (hiff2 n hn).mpr hb2⟩
        have hbits_small : ∀ n, (col_count + 1) * row_count ≤ n →
            (b.stack.get ⟨i, hiN⟩).1.testBit n = false := by
          intro n hnA
          rw [Bool.eq_false_iff]
          intro hc
          have := (hmf2 n hc).1
          omega
        rw [hfe2, ← filter_range_extend harea _ hbits_small]
        show popCount64 (b.stack.get ⟨i, hiN⟩).1 = 4
        exact hpc4 _ (List.mem_iff_get.mpr ⟨⟨i, hiN⟩, rfl⟩)
      · intro cell
        rw [mem_labelCellsOf]
        constructor
        · rintro ⟨n, hnlen, hbeq, hcell⟩
          rw [hplen] at hnlen
          obtain ⟨hi2, hbit⟩ := hbyte_inv i hiN n hnlen hbeq
          have hbit2 : (variantBitmap (col_count + 1)
              (piece_shape (vs.get ⟨i, hi⟩)) <<< s).testBit n = true := by
            rw [← hex]
            exact hbit
          obtain ⟨o, ho, hn_eq⟩ := (hcells n).mp hbit2
          obtain ⟨ho2a, ho2b, ho1⟩ := hgeom o ho
          have hA0 : (0 : Int) ≤ ((s / (col_count + 1) : Nat) : Int) + o.1 :=
            add_nonneg (Int.natCast_nonneg _) ho1
          obtain ⟨hdiv, hmod⟩ := int_div_mod_of_decomp (by omega) hA0 ho2a ho2b hn_eq
          refine ⟨o, ho, ?_⟩
          rw [hcell, Prod.ext_iff]
          constructor
          · dsimp only
            omega
          · dsimp only
            omega
        · rintro ⟨o, ho, hcell⟩
          obtain ⟨ho2a, ho2b, ho1⟩ := hgeom o ho
          have hA0 : (0 : Int) ≤ ((s / (col_count + 1) : Nat) : Int) + o.1 :=
            add_nonneg (Int.natCast_nonneg _) ho1
          have hq0 : (0 : Int) ≤ (((s / (col_count + 1) : Nat) : Int) + o.1)
              * ((col_count + 1 : Nat) : Int)
              + (((s % (col_count + 1) : Nat) : Int) + o.2) := by
            have hm0 : (0 : Int) ≤ (((s / (col_count + 1) : Nat) : Int) + o.1)
                * ((col_count + 1 : Nat) : Int) :=
              mul_nonneg hA0 (Int.natCast_nonneg _)
            omega
          have hnint : (((((s / (col_count + 1) : Nat) : Int) + o.1)
              * ((col_count + 1 : Nat) : Int)
              + (((s % (col_count + 1) : Nat) : Int) + o.2)).toNat : Int)
              = (((s / (col_count + 1) : Nat) : Int) + o.1)
              * ((col_count + 1 : Nat) : Int)
              + (((s % (col_count + 1) : Nat) : Int) + o.2) :=
            Int.toNat_of_nonneg hq0
          have hbit2 : (variantBitmap (col_count + 1)
              (piece_shape (vs.get ⟨i, hi⟩)) <<< s).testBit
              ((((s / (col_count + 1) : Nat) : Int) + o.1)
                * ((col_count + 1 : Nat) : Int)
                + (((s % (col_count + 1) : Nat) : Int) + o.2)).toNat = true :=
            (hcells _).mpr ⟨o, ho, hnint⟩
          have hbit : (b.stack.get ⟨i, hiN⟩).1.testBit
              ((((s / (col_count + 1) : Nat) : Int) + o.1)
                * ((col_count + 1 : Nat) : Int)
                + (((s % (col_count + 1) : Nat) : Int) + o.2)).toNat = true := by
            rw [hex]
            exact hbit2
          have hnb := hmf2 _ hbit
          obtain ⟨hdiv, hmod⟩ := int_div_mod_of_decomp (by omega) hA0 ho2a ho2b hnint
          refine ⟨_, by rw [hplen]; exact hnb.1, hbyte_cov i hiN _ hbit, ?_⟩
          rw [hcell, Prod.ext_iff]
          constructor
          · dsimp only
            omega
          · dsimp only
            omega

/-- C2: for every input on which `solve_one` returns `Ok(Some(position))`
(stated for inputs with the faithful `[u32; 7]` counts representation and
with every `Board::new` shift amount in range, so construction does not fault
— cf. claim C1), the returned plain rendering satisfies the spec: the byte
grid is `row_count` rows of `column_count + 1` bytes whose sentinel column
holds newlines; every true cell holds an uppercase label `'A' + i` with
`i` below the piece count — never `'.'`, so the board is completely covered;
the labelled cells number exactly 4 times the input piece count; and there is
a list of fixed-shape variants, one per label, whose base kinds account for
the input multiset exactly and whose translated canonical footprints are
exactly the labels' cell sets. -/
theorem c2_solution_validity
    (row_count col_count : Nat) (pieces : PieceCollection) (p : Position)
    (h7 : pieces.counts.length = 7)
    (hrange : Board.newShiftsInRange row_count col_count = true)
    (hok : solve_one row_count col_count pieces = Except.ok (some p)) :
    p.squares.length = (col_count + 1) * row_count ∧
    (∀ n, n < p.squares.length →
      (if n % (col_count + 1) = col_count then p.squares.getD n 0 = 10
       else 65 ≤ p.squares.getD n 0 ∧ p.squares.getD n 0 < 65 + pieces.count_all)) ∧
    (∀ n, n < p.squares.length → p.squares.getD n 0 ≠ 46) ∧
    ((Finset.range p.squares.length).filter
        (fun n => 65 ≤ p.squares.getD n 0)).card = 4 * pieces.count_all ∧
    (∃ vs : List FixedPiece, vs.length = pieces.count_all ∧
      (∀ k : Piece, (vs.filter (fun v => pieceMapAt v == k)).length
          = pieces.count k) ∧
      (∀ i : Nat, ∀ hi : i < vs.length, ∃ dr dc : Int,
        (labelCellsOf p.squares (col_count + 1) (65 + i)).length = 4 ∧
        (∀ cell : Int × Int,
          cell ∈ labelCellsOf p.squares (col_count + 1) (65 + i) ↔
          ∃ o ∈ footprintOf (vs.get ⟨i, hi⟩), cell = (o.1 + dr, o.2 + dc)))) := by
  have hok2 : Solver.solve_one (pieces.count_all + 1)
        (Board.new row_count col_count) pieces = some p ∧
      4 * pieces.count_all = row_count * col_count := by
    simp only [solve_one] at hok
    split at hok
    · exact Except.noConfusion hok
    · split at hok
      · exact Except.noConfusion hok
      · split at hok
        · exact Except.noConfusion hok
        · rename_i h1 h2 h3
          exact ⟨Except.ok.inj hok, not_not.mp h2⟩
  obtain ⟨hsolve, hval⟩ := hok2
  obtain ⟨b2, pcs2, inv2, hcomp, hpos⟩ :=
    solver_some_invariant (pieces.count_all + 1) (Board.new row_count col_count)
      pieces p (root_inv h7) hsolve
  exact solved_position_spec inv2 hcomp hpos hrange hval

theorem c2_solution_validity_witness :
    (⟨[1, 0, 0, 0, 0, 0, 0]⟩ : PieceCollection).counts.length = 7 ∧
    Board.newShiftsInRange 1 4 = true ∧
    solve_one 1 4 ⟨[1, 0, 0, 0, 0, 0, 0]⟩
      = Except.ok (some ⟨stringBytes "AAAA\n"⟩) ∧
    (⟨stringBytes "AAAA\n"⟩ : Position).squares.length = (4 + 1) * 1 :=
  ⟨rfl, rfl, rfl,
    (c2_solution_validity 1 4 ⟨[1, 0, 0, 0, 0, 0, 0]⟩ ⟨stringBytes "AAAA\n"⟩ rfl
      rfl rfl).1⟩

/-- C10: the `Position` produced by `Board::position` labels pieces in
placement order with consecutive letters from `'A'`.  First conjunct: for
every board whose live placement stack respects the 12-entry capacity, every
byte of the rendering is `'.'`, `'\n'`, or `'A' + i` for some stack index
`i < stack length`; in particular every label lies in `'A'` (65) through
`'L'` (76).  Second conjunct, the index-to-letter mapping itself: for every
board whose stack entries satisfy the placement contracts that `push`
establishes on real boards (each entry an exactly-shifted precomputed variant
bitmap covering true board cells only, entries pairwise disjoint, the board's
geometry that of `Board::new`), the rendering succeeds and every cell covered
by the piece at stack index `i` receives exactly the byte `'A' + i`. -/
theorem c10_position_labels :
    (∀ b : Board, ∀ pos : Position, b.stack.length ≤ MAX_PIECE_COUNT →
      b.position? = some pos →
      ∀ byte ∈ pos.squares,
        (byte = 46 ∨ byte = 10 ∨ ∃ i, i < b.stack.length ∧ byte = i + 65) ∧
        (byte ≠ 46 → byte ≠ 10 → 65 ≤ byte ∧ byte ≤ 76)) ∧
    (∀ row_count col_count : Nat, ∀ b : Board,
      b.width = col_count + 1 → b.height = row_count →
      b.bitmaps = (Board.new row_count col_count).bitmaps →
      Board.newShiftsInRange row_count col_count = true →
      b.stack.Pairwise (fun e1 e2 => e1.1 &&& e2.1 = 0) →
      (∀ e ∈ b.stack, EntryRenderable row_count col_count e) →
      ∃ pos : Position, b.position? = some pos ∧
        ∀ i : Nat, ∀ hi : i < b.stack.length, ∀ m : Nat,
          (b.stack.get ⟨i, hi⟩).1.testBit m = true →
          pos.squares.getD m 0 = 65 + i) := by
  constructor
  · intro b pos hlen hpos byte hb
    unfold Board.position? at hpos
    cases hgo : posEntriesGo b 0 b.stack (List.replicate (b.width * b.height) 46) with
    | none => rw [hgo] at hpos; cases hpos
    | some squares =>
      rw [hgo] at hpos
      injection hpos with hpos
      subst hpos
      have h1 : byte ∈ squares ∨ byte = 10 := mem_set_fold_newline _ _ hb
      have main : byte = 46 ∨ byte = 10 ∨ ∃ i, i < b.stack.length ∧ byte = i + 65 := by
        rcases h1 with h1 | h1
        · rcases mem_posEntriesGo _ _ _ _ hgo h1 with h2 | ⟨k, _, hk2, hk3⟩
          · exact Or.inl (List.eq_of_mem_replicate h2)
          · exact Or.inr (Or.inr ⟨k, by omega, hk3⟩)
        · exact Or.inr (Or.inl h1)
      refine ⟨main, ?_⟩
      intro h46 h10
      have h12 : MAX_PIECE_COUNT = 12 := rfl
      rcases main with h | h | ⟨i, hi, rfl⟩
      · exact absurd h h46
      · exact absurd h h10
      · omega
  · intro row_count col_count b hw hh hbm hrange hdisj hent
    have hrepl_len : (List.replicate (b.width * b.height) 46).length
        = (col_count + 1) * row_count := by
      rw [List.length_replicate, hw, hh]
    obtain ⟨out, hrun, holen, hagree, hlabel⟩ :=
      posEntriesGo_spec hw hbm hrange b.stack 0
        (List.replicate (b.width * b.height) 46) hrepl_len hent hdisj
    have hposition : b.position?
        = some ⟨(List.range' col_count row_count (col_count + 1)).foldl
            (fun sq n => sq.set n 10) out⟩ := by
      unfold Board.position?
      rw [hrun]
      simp only [hw, hh, Nat.add_sub_cancel]
    have hsent_mem : ∀ n ∈ List.range' col_count row_count (col_count + 1),
        n < out.length := by
      intro n hn
      rw [holen, hrepl_len]
      exact (mem_sentinel_range.mp hn).1
    obtain ⟨hstlen, hstget⟩ :=
      stamp_fold_spec (List.range' col_count row_count (col_count + 1)) out hsent_mem
    refine ⟨⟨(List.range' col_count row_count (col_count + 1)).foldl
        (fun sq n => sq.set n 10) out⟩, hposition, ?_⟩
    dsimp only
    intro i hi m hbit
    obtain ⟨v, s, hex, hmf⟩ := hent _ (List.mem_iff_get.mpr ⟨⟨i, hi⟩, rfl⟩)
    have hmod := hmf m hbit
    rw [hstget m, if_neg (fun hc => hmod.2 (mem_sentinel_range.mp hc).2),
      hlabel i hi m hbit]

/-- Witness for `c10_position_labels`: the board obtained by pushing `I2` on
a fresh 1-by-4 board renders as `"AAAA\n"`, whose bytes all satisfy the label
property, and whose single stack entry (index 0) gets the byte `'A' + 0` on
its cells. -/
theorem c10_position_labels_witness :
    ((Board.new 1 4).push .I2
        = some { Board.new 1 4 with bits := U64_MAX, stack := [(15, Piece.I)] }) ∧
    ({ Board.new 1 4 with bits := U64_MAX, stack := [(15, Piece.I)] } : Board).stack.length
        ≤ MAX_PIECE_COUNT ∧
    ({ Board.new 1 4 with bits := U64_MAX, stack := [(15, Piece.I)] } : Board).position?
        = some ⟨stringBytes "AAAA\n"⟩ ∧
    (∀ byte ∈ stringBytes "AAAA\n",
      (byte = 46 ∨ byte = 10 ∨
        ∃ i, i < ({ Board.new 1 4 with bits := U64_MAX, stack := [(15, Piece.I)] } : Board).stack.length ∧ byte = i + 65) ∧
      (byte ≠ 46 → byte ≠ 10 → 65 ≤ byte ∧ byte ≤ 76)) ∧
    (∃ pos : Position,
      ({ Board.new 1 4 with bits := U64_MAX, stack := [(15, Piece.I)] } : Board).position?
        = some pos ∧ pos.squares.getD 0 0 = 65 + 0) := by
  have hent : ∀ e ∈ ({ Board.new 1 4 with bits := U64_MAX, stack := [(15, Piece.I)] } : Board).stack, EntryRenderable 1 4 e := by
    intro e he
    have he2 : e = (15, Piece.I) := by simpa using he
    subst he2
    refine ⟨.I2, 0, by decide, ?_⟩
    intro q hq
    dsimp only at hq
    have hqlt : q < 4 := by
      by_contra hge
      have h2p : (15 : Nat) < 2 ^ q := by
        calc (15 : Nat) < 2 ^ 4 := by norm_num
          _ ≤ 2 ^ q := Nat.pow_le_pow_right (by norm_num) (by omega)
      rw [Nat.testBit_lt_two_pow h2p] at hq
      cases hq
    exact ⟨by omega, by omega⟩
  refine ⟨by decide, by decide, rfl, ?_, ?_⟩
  · exact fun byte hb => c10_position_labels.1
      { Board.new 1 4 with bits := U64_MAX, stack := [(15, Piece.I)] }
      ⟨stringBytes "AAAA\n"⟩ (by decide) rfl byte hb
  · obtain ⟨pos, hpos, hmap⟩ := c10_position_labels.2 1 4
      { Board.new 1 4 with bits := U64_MAX, stack := [(15, Piece.I)] }
      rfl rfl rfl rfl (List.pairwise_singleton _ _) hent
    exact ⟨pos, hpos, hmap 0 (by decide) 0 (by decide)⟩
